import Mathlib

/-!
Verification of the email extraction, cleaning and CSV export pipeline of the
repository (src/email-processor.js and src/gmail-auth.js).

The JavaScript source is shallowly embedded: JS strings become Lean String
(operations work on the underlying List Char), JS regular-expression tests and
replacements become executable character-list scanners with the same matching
semantics, and the two near-duplicate cleaning pipelines are embedded separately
in the namespaces EmailProcessor (src/email-processor.js) and GmailAuth
(src/gmail-auth.js).  Host-environment functions that are not part of the
repository (base64 decoding via Buffer, date parsing via new Date, the cheerio
HTML parser and the html-to-text converter) are either taken as parameters or
modelled at the granularity the theorems need; each such definition carries a
comment saying what it models.
-/

set_option maxRecDepth 100000

namespace JsStr

/-- The ECMAScript whitespace class: the characters matched by the regex class
backslash-s and stripped by String.prototype.trim (whitespace plus line
terminators). -/
def wsJS (c : Char) : Bool :=
  c = ' ' || c = '\t' || c = '\n' || c = '\r' || c = '\u000b' || c = '\u000c' ||
  c = '\u00a0' || c = '\u1680' || (0x2000 ≤ c.toNat && c.toNat ≤ 0x200a) ||
  c = '\u2028' || c = '\u2029' || c = '\u202f' || c = '\u205f' || c = '\u3000' ||
  c = '\ufeff'

/-- The character class of the regex, a space or a tab. -/
def isSpTab (c : Char) : Bool := c = ' ' || c = '\t'

/-- The character class of the regex, a newline. -/
def isNl (c : Char) : Bool := c = '\n'

/-- One global regex replacement collapsing every run of characters of the class
isC to the single character rep.  The boolean flag records whether the scanner
is currently inside a run. -/
def squashAux (isC : Char → Bool) (rep : Char) : Bool → List Char → List Char
  | _, [] => []
  | inRun, c :: cs =>
    if isC c then
      if inRun then squashAux isC rep true cs
      else rep :: squashAux isC rep true cs
    else c :: squashAux isC rep false cs

/-- text.replace of runs of the class isC by the single character rep. -/
def squash (isC : Char → Bool) (rep : Char) (l : List Char) : List Char :=
  squashAux isC rep false l

/-- Strip leading JS whitespace (the left half of String.prototype.trim). -/
def trimL (l : List Char) : List Char := l.dropWhile wsJS

/-- Strip trailing JS whitespace (the right half of String.prototype.trim). -/
def trimR (l : List Char) : List Char := (l.reverse.dropWhile wsJS).reverse

/-- String.prototype.trim on a character list. -/
def trimB (l : List Char) : List Char := trimR (trimL l)

/-- A list is normal for the class isC when every class character is rep and no
two class characters are adjacent: exactly the shape squash produces. -/
def headNotC (isC : Char → Bool) : List Char → Bool
  | [] => true
  | c :: _ => !isC c

/-- Recursive form of the normality predicate for squash outputs. -/
def normedOK (isC : Char → Bool) (rep : Char) : List Char → Bool
  | [] => true
  | c :: cs => (!isC c || (c == rep && headNotC isC cs)) && normedOK isC rep cs

theorem headNotC_squashAux_true (isC : Char → Bool) (rep : Char) :
    ∀ cs : List Char, headNotC isC (squashAux isC rep true cs) = true := by
  intro cs
  induction cs with
  | nil => rfl
  | cons d ds ih =>
    by_cases h : isC d
    · simpa [squashAux, h] using ih
    · simp [squashAux, h, headNotC]

theorem normedOK_squashAux (isC : Char → Bool) (rep : Char) (hrep : isC rep = true) :
    ∀ (l : List Char) (b : Bool), normedOK isC rep (squashAux isC rep b l) = true := by
  intro l
  induction l with
  | nil => intro b; rfl
  | cons c cs ih =>
    intro b
    by_cases h : isC c
    · cases b with
      | true => simpa [squashAux, h] using ih true
      | false =>
        have h1 := headNotC_squashAux_true isC rep cs
        have h2 := ih true
        simp [squashAux, h, normedOK, hrep, h1, h2]
    · cases b with
      | true =>
        simp only [squashAux, h, ite_false, Bool.false_eq_true]
        simp only [normedOK, h, Bool.not_false, Bool.true_or, Bool.true_and]
        exact ih false
      | false =>
        simp only [squashAux, h, ite_false, Bool.false_eq_true]
        simp only [normedOK, h, Bool.not_false, Bool.true_or, Bool.true_and]
        exact ih false

theorem squashAux_id_of_normed (isC : Char → Bool) (rep : Char) :
    ∀ l : List Char, normedOK isC rep l = true →
      squashAux isC rep false l = l ∧
        (headNotC isC l = true → squashAux isC rep true l = l) := by
  intro l
  induction l with
  | nil => intro _; exact ⟨rfl, fun _ => rfl⟩
  | cons c cs ih =>
    intro h
    simp only [normedOK, Bool.and_eq_true] at h
    obtain ⟨hc, hcs⟩ := h
    obtain ⟨ih1, ih2⟩ := ih hcs
    by_cases hC : isC c
    · simp only [hC, Bool.not_true, Bool.false_or, Bool.and_eq_true, beq_iff_eq] at hc
      obtain ⟨hceq, hhead⟩ := hc
      have htail : squashAux isC rep true cs = cs := by
        cases cs with
        | nil => rfl
        | cons d ds =>
          simp only [headNotC, Bool.not_eq_true'] at hhead
          simpa [squashAux, hhead] using ih1
      refine ⟨?_, ?_⟩
      · have hstep : squashAux isC rep false (c :: cs) = rep :: squashAux isC rep true cs := by
          simp [squashAux, hC]
        rw [hstep, htail, ← hceq]
      · intro habs
        simp [headNotC, hC] at habs
    · constructor
      · simp [squashAux, hC, ih1]
      · intro _
        simp [squashAux, hC, ih1]

theorem headNotC_squashAux_other (isC isD : Char → Bool) (repD : Char)
    (hdisj : ∀ c, isD c = true → isC c = false) (hrepD : isD repD = true) :
    ∀ l : List Char, headNotC isC l = true →
      headNotC isC (squashAux isD repD false l) = true := by
  intro l h
  cases l with
  | nil => rfl
  | cons c cs =>
    by_cases hD : isD c
    · simp [squashAux, hD, headNotC, hdisj repD hrepD]
    · simpa [squashAux, hD, headNotC] using h

theorem normedOK_squashAux_other (isC isD : Char → Bool) (rep repD : Char)
    (hdisj : ∀ c, isD c = true → isC c = false) (hrepD : isD repD = true) :
    ∀ l : List Char, ∀ b : Bool, normedOK isC rep l = true →
      normedOK isC rep (squashAux isD repD b l) = true := by
  intro l
  induction l with
  | nil => intro b _; cases b <;> rfl
  | cons c cs ih =>
    intro b h
    simp only [normedOK, Bool.and_eq_true] at h
    obtain ⟨hc, hcs⟩ := h
    by_cases hD : isD c
    · cases b with
      | true => simpa [squashAux, hD] using ih true hcs
      | false =>
        simp only [squashAux, hD, ite_true]
        simp only [normedOK, hdisj repD hrepD, Bool.not_false, Bool.true_or,
          Bool.true_and]
        exact ih true hcs
    · have hout : squashAux isD repD b (c :: cs) = c :: squashAux isD repD false cs := by
        cases b <;> simp [squashAux, hD]
      rw [hout]
      simp only [normedOK, Bool.and_eq_true]
      refine ⟨?_, ih false hcs⟩
      by_cases hC : isC c
      · simp only [hC, Bool.not_true, Bool.false_or, Bool.and_eq_true, beq_iff_eq] at hc ⊢
        exact ⟨hc.1, headNotC_squashAux_other isC isD repD hdisj hrepD cs hc.2⟩
      · simp [hC]

theorem headNotC_append (isC : Char → Bool) :
    ∀ l₁ l₂ : List Char, headNotC isC (l₁ ++ l₂) = true → headNotC isC l₁ = true := by
  intro l₁ l₂ h
  cases l₁ with
  | nil => rfl
  | cons c cs => simpa [headNotC] using h

theorem normedOK_append_left (isC : Char → Bool) (rep : Char) :
    ∀ l₁ l₂ : List Char, normedOK isC rep (l₁ ++ l₂) = true →
      normedOK isC rep l₁ = true := by
  intro l₁
  induction l₁ with
  | nil => intro l₂ _; rfl
  | cons c cs ih =>
    intro l₂ h
    simp only [List.cons_append, normedOK, Bool.and_eq_true] at h ⊢
    obtain ⟨h1, h2⟩ := h
    refine ⟨?_, ih l₂ h2⟩
    by_cases hC : isC c
    · simp only [hC, Bool.not_true, Bool.false_or, Bool.and_eq_true] at h1 ⊢
      exact ⟨h1.1, headNotC_append isC cs l₂ h1.2⟩
    · simp [hC]

theorem normedOK_append_right (isC : Char → Bool) (rep : Char) :
    ∀ l₁ l₂ : List Char, normedOK isC rep (l₁ ++ l₂) = true →
      normedOK isC rep l₂ = true := by
  intro l₁
  induction l₁ with
  | nil => intro l₂ h; simpa using h
  | cons c cs ih =>
    intro l₂ h
    simp only [List.cons_append, normedOK, Bool.and_eq_true] at h
    exact ih l₂ h.2

theorem rev_split (p : Char → Bool) (l : List Char) :
    l = (l.reverse.dropWhile p).reverse ++ (l.reverse.takeWhile p).reverse := by
  have e1 : l.reverse.takeWhile p ++ l.reverse.dropWhile p = l.reverse :=
    List.takeWhile_append_dropWhile p l.reverse
  calc l = l.reverse.reverse := (List.reverse_reverse l).symm
    _ = (l.reverse.takeWhile p ++ l.reverse.dropWhile p).reverse := by rw [e1]
    _ = (l.reverse.dropWhile p).reverse ++ (l.reverse.takeWhile p).reverse :=
        List.reverse_append _ _

theorem normedOK_trimL (isC : Char → Bool) (rep : Char) (l : List Char)
    (h : normedOK isC rep l = true) : normedOK isC rep (trimL l) = true := by
  have hd : l.takeWhile wsJS ++ l.dropWhile wsJS = l :=
    List.takeWhile_append_dropWhile wsJS l
  exact normedOK_append_right isC rep (l.takeWhile wsJS) (l.dropWhile wsJS)
    (by rw [hd]; exact h)

theorem normedOK_trimR (isC : Char → Bool) (rep : Char) (l : List Char)
    (h : normedOK isC rep l = true) : normedOK isC rep (trimR l) = true := by
  have e2 := rev_split wsJS l
  rw [e2] at h
  exact normedOK_append_left isC rep _ _ h

theorem normedOK_trimB (isC : Char → Bool) (rep : Char) (l : List Char)
    (h : normedOK isC rep l = true) : normedOK isC rep (trimB l) = true :=
  normedOK_trimR isC rep _ (normedOK_trimL isC rep l h)

theorem dropWhile_dropWhile_same (p : Char → Bool) :
    ∀ l : List Char, (l.dropWhile p).dropWhile p = l.dropWhile p := by
  intro l
  induction l with
  | nil => rfl
  | cons c cs ih =>
    by_cases h : p c
    · simp [List.dropWhile_cons, h, ih]
    · simp [List.dropWhile_cons, h]

theorem headNotC_of_dropWhile (p : Char → Bool) :
    ∀ l : List Char, headNotC p (l.dropWhile p) = true := by
  intro l
  induction l with
  | nil => rfl
  | cons c cs ih =>
    by_cases h : p c
    · simpa [List.dropWhile_cons, h] using ih
    · simp [List.dropWhile_cons, h, headNotC]

theorem trimL_eq_self (l : List Char) (h : headNotC wsJS l = true) : trimL l = l := by
  cases l with
  | nil => rfl
  | cons c cs =>
    simp only [headNotC, Bool.not_eq_true'] at h
    simp [trimL, List.dropWhile_cons, h]

theorem headNotC_trimR (l : List Char) (h : headNotC wsJS l = true) :
    headNotC wsJS (trimR l) = true := by
  cases htr : trimR l with
  | nil => rfl
  | cons c cs =>
    have e2 := rev_split wsJS l
    rw [show (l.reverse.dropWhile wsJS).reverse = trimR l from rfl, htr] at e2
    rw [e2] at h
    simpa [headNotC] using h

theorem trimR_trimR (l : List Char) : trimR (trimR l) = trimR l := by
  show ((trimR l).reverse.dropWhile wsJS).reverse = trimR l
  rw [show trimR l = (l.reverse.dropWhile wsJS).reverse from rfl]
  rw [List.reverse_reverse, dropWhile_dropWhile_same]

theorem trimB_idem (l : List Char) : trimB (trimB l) = trimB l := by
  show trimR (trimL (trimR (trimL l))) = trimR (trimL l)
  have h1 : headNotC wsJS (trimL l) = true := headNotC_of_dropWhile wsJS l
  have h2 : headNotC wsJS (trimR (trimL l)) = true := headNotC_trimR _ h1
  rw [trimL_eq_self _ h2, trimR_trimR]

end JsStr

/-- Source: normalizeWhitespace, src/email-processor.js lines 102 to 104, with an
identical copy at src/gmail-auth.js lines 990 to 992.  The body is
text.replace of space-tab runs by one space, then .replace of newline runs by
one newline, then .trim(), modelled on the character list. -/
def normList (l : List Char) : List Char :=
  JsStr.trimB (JsStr.squash JsStr.isNl '\n' (JsStr.squash JsStr.isSpTab ' ' l))

/-- normalizeWhitespace of the source, as a String function. -/
def normalizeWhitespace (s : String) : String := ⟨normList s.data⟩

theorem normList_idem (l : List Char) : normList (normList l) = normList l := by
  have hSP : JsStr.isSpTab ' ' = true := by decide
  have hNL : JsStr.isNl '\n' = true := by decide
  have hdisj : ∀ c, JsStr.isNl c = true → JsStr.isSpTab c = false := by
    intro c hc
    have hc2 : c = '\n' := by
      simpa [JsStr.isNl, decide_eq_true_eq] using hc
    subst hc2; decide
  have h1 : JsStr.normedOK JsStr.isSpTab ' '
      (JsStr.squash JsStr.isSpTab ' ' l) = true :=
    JsStr.normedOK_squashAux _ _ hSP l false
  have h2 : JsStr.normedOK JsStr.isSpTab ' '
      (JsStr.squash JsStr.isNl '\n' (JsStr.squash JsStr.isSpTab ' ' l)) = true :=
    JsStr.normedOK_squashAux_other _ _ _ _ hdisj hNL _ false h1
  have h3 : JsStr.normedOK JsStr.isSpTab ' ' (normList l) = true :=
    JsStr.normedOK_trimB _ _ _ h2
  have h4 : JsStr.normedOK JsStr.isNl '\n'
      (JsStr.squash JsStr.isNl '\n' (JsStr.squash JsStr.isSpTab ' ' l)) = true :=
    JsStr.normedOK_squashAux _ _ hNL _ false
  have h5 : JsStr.normedOK JsStr.isNl '\n' (normList l) = true :=
    JsStr.normedOK_trimB _ _ _ h4
  have e1 : JsStr.squash JsStr.isSpTab ' ' (normList l) = normList l :=
    (JsStr.squashAux_id_of_normed _ _ _ h3).1
  have e2 : JsStr.squash JsStr.isNl '\n' (normList l) = normList l :=
    (JsStr.squashAux_id_of_normed _ _ _ h5).1
  show JsStr.trimB (JsStr.squash JsStr.isNl '\n'
    (JsStr.squash JsStr.isSpTab ' ' (normList l))) = normList l
  rw [e1, e2]
  exact JsStr.trimB_idem _

/-- Claim C9: the text normalizer is idempotent; for every input string x,
normalizeWhitespace (normalizeWhitespace x) equals normalizeWhitespace x. -/
theorem claim_C9_normalizeWhitespace_idem (s : String) :
    normalizeWhitespace (normalizeWhitespace s) = normalizeWhitespace s :=
  congrArg String.mk (normList_idem s.data)

namespace JsStr

/-- The regex word class backslash-w, an ASCII letter, digit or underscore. -/
def isWordCh (c : Char) : Bool := c.isAlphanum || c = '_'

/-- A word boundary at the position holding c, whose predecessor is prev
(none at the start of the string). -/
def wordB (prev : Option Char) (c : Char) : Bool :=
  match prev with
  | none => isWordCh c
  | some p => isWordCh p != isWordCh c

/-- The head of the list is absent or not a word character: the regex word
boundary after a word character. -/
def headNotW : List Char → Bool
  | [] => true
  | c :: _ => !isWordCh c

/-- Character class of the local part of the email regex. -/
def emailClass1 (c : Char) : Bool :=
  c.isAlphanum || c = '.' || c = '_' || c = '%' || c = '+' || c = '-'

/-- Character class of the domain part of the email regex. -/
def emailClass2 (c : Char) : Bool := c.isAlphanum || c = '.' || c = '-'

/-- After the literal dot of the email regex, at least two letters followed by a
word boundary (for .test with the i flag the letters may be either case). -/
def emailDotTail (l : List Char) : Bool :=
  let r := l.takeWhile Char.isAlpha
  (2 ≤ r.length) && headNotW (l.drop r.length)

/-- Scanning the domain after at least one domain character: either the current
character is the literal dot of the top-level-domain part, or the domain run
goes on. -/
def emailAtScan : List Char → Bool
  | [] => false
  | c :: cs => (c = '.' && emailDotTail cs) || (emailClass2 c && emailAtScan cs)

/-- The part of the email regex after the @: one or more domain characters,
then a dot, then the top-level-domain letters and a boundary. -/
def emailAfterAt : List Char → Bool
  | [] => false
  | c :: cs => emailClass2 c && emailAtScan cs

/-- An email match starting exactly at the head of l: a run of local-part
characters, an @, then the domain part. -/
def emailHeadMatch (l : List Char) : Bool :=
  let r := l.takeWhile emailClass1
  let rest := l.drop r.length
  decide (r ≠ []) &&
    match rest with
    | '@' :: rs => emailAfterAt rs
    | _ => false

/-- Existence scan for the email regex across all start positions, tracking the
previous character for the word boundary. -/
def emailScan (prev : Option Char) : List Char → Bool
  | [] => false
  | c :: cs => (wordB prev c && emailHeadMatch (c :: cs)) || emailScan (some c) cs

/-- .test of the source email regex (boundary, local part, @, domain, dot,
letters, boundary; case-insensitive). -/
def hasEmailPat (l : List Char) : Bool := emailScan none l

/-- An exact ddd-ddd-dddd phone match at the head of l, followed by a word
boundary. -/
def phoneMatch : List Char → Bool
  | a :: b :: c :: '-' :: d :: e :: f :: '-' :: g :: h :: x :: y :: rest =>
      a.isDigit && b.isDigit && c.isDigit && d.isDigit && e.isDigit && f.isDigit &&
      g.isDigit && h.isDigit && x.isDigit && y.isDigit && headNotW rest
  | _ => false

/-- Existence scan for the phone regex across all start positions. -/
def phoneScan (prev : Option Char) : List Char → Bool
  | [] => false
  | c :: cs => (wordB prev c && phoneMatch (c :: cs)) || phoneScan (some c) cs

/-- .test of the source phone regex with word boundaries on both sides. -/
def hasPhonePat (l : List Char) : Bool := phoneScan none l

/-- At least one non-whitespace character at offset n of l: the one-or-more
non-space tail of the URL regex. -/
def nonWsAfter (l : List Char) (n : Nat) : Bool :=
  match l.drop n with
  | [] => false
  | c :: _ => !wsJS c

/-- A URL match starting at the head of l: the protocol followed by at least
one non-whitespace character. -/
def urlAt (l : List Char) : Bool :=
  ("http://".data.isPrefixOf l && nonWsAfter l 7) ||
  ("https://".data.isPrefixOf l && nonWsAfter l 8)

/-- Existence scan for the URL regex. -/
def urlScan : List Char → Bool
  | [] => false
  | c :: cs => urlAt (c :: cs) || urlScan cs

/-- .test of the source URL regex. -/
def hasURLPat (l : List Char) : Bool := urlScan l

/-- String.prototype.includes: the needle occurs contiguously inside the
haystack. -/
def isSubL (needle : List Char) : List Char → Bool
  | [] => decide (needle = [])
  | c :: cs => needle.isPrefixOf (c :: cs) || isSubL needle cs

/-- String.prototype.split on a single separator character: separators give
group boundaries and empty groups are kept. -/
def splitCh (sep : Char) : List Char → List (List Char)
  | [] => [[]]
  | c :: cs =>
    if c = sep then [] :: splitCh sep cs
    else
      match splitCh sep cs with
      | g :: gs => (c :: g) :: gs
      | [] => [[c]]

/-- The closing salutations of the signature regex, lowercased. -/
def sigKws : List (List Char) :=
  ["best regards", "sincerely", "cheers", "thanks"].map String.data

/-- The signature-start test of cleanPlainText on one line: the trimmed line
starts with two dashes, or equals a closing salutation with an optional
trailing comma, case-insensitively (the anchored whitespace of the regex is
vacuous on the trimmed line). -/
def isSigLine (line : List Char) : Bool :=
  let t := trimB line
  ['-', '-'].isPrefixOf t ||
  (let low := t.map Char.toLower
   sigKws.any (fun k => low == k || low == k ++ [',']))

end JsStr

/-- The backward signature scan of cleanPlainText (identical in both source
files): the loop walks indices from the end and breaks at the first match, so
it returns the largest index whose line passes the signature test; modelled by
structural recursion computing the last matching index. -/
def sigStart (lines : List (List Char)) : Option Nat :=
  match lines with
  | [] => none
  | l :: ls =>
    match sigStart ls with
    | some i => some (i + 1)
    | none => if JsStr.isSigLine l then some 0 else none

namespace EmailProcessor

/-- Source: cleanPlainText, src/email-processor.js lines 200 to 230.  Splits on
newlines, cuts the tail from the signature line found by the backward scan,
drops lines whose trimmed form matches the email, phone or URL regex, joins and
normalizes. -/
def cleanPlainText (s : String) : String :=
  if s = "" then ""
  else
    let lines := JsStr.splitCh '\n' s.data
    let lines2 :=
      match sigStart lines with
      | some i => lines.take i
      | none => lines
    let kept := lines2.filter (fun l =>
      !JsStr.hasEmailPat (JsStr.trimB l) && !JsStr.hasPhonePat (JsStr.trimB l) &&
      !JsStr.hasURLPat (JsStr.trimB l))
    normalizeWhitespace ⟨List.intercalate ['\n'] kept⟩

end EmailProcessor

namespace GmailAuth

/-- Source: cleanPlainText, src/gmail-auth.js lines 1081 to 1106.  Same
signature cut as the email-processor variant, but afterwards only blank lines
are dropped; contact lines are kept. -/
def cleanPlainText (s : String) : String :=
  if s = "" then ""
  else
    let lines := JsStr.splitCh '\n' s.data
    let lines2 :=
      match sigStart lines with
      | some i => lines.take i
      | none => lines
    let kept := lines2.filter (fun l => decide (JsStr.trimB l ≠ []))
    normalizeWhitespace ⟨List.intercalate ['\n'] kept⟩

end GmailAuth

example : EmailProcessor.cleanPlainText "Hi team\n\nBest regards,\nJohn\n555-123-4567" =
    "Hi team" := by decide

example : GmailAuth.cleanPlainText "Hi team\n\nBest regards,\nJohn\n555-123-4567" =
    "Hi team" := by decide

example : JsStr.hasPhonePat "call 555-123-4567 now".data = true := by decide
example : JsStr.hasPhonePat "5555-123-4567".data = false := by decide
example : JsStr.hasEmailPat "write a.b@c-d.org please".data = true := by decide
example : JsStr.hasEmailPat "Hi team".data = false := by decide
example : JsStr.hasURLPat "see https://x.y".data = true := by decide
example : JsStr.hasURLPat "see https:// x".data = false := by decide

namespace EmailProcessor

/-- Footer keyword list of filterBoilerplateLines, src/email-processor.js lines
76 to 80 (this variant includes the contact-us keyword). -/
def footerKeywords : List (List Char) :=
  (["unsubscribe", "privacy policy", "terms and conditions", "contact us",
    "view in browser", "sent from my", "this email was sent by", "copyright",
    "all rights reserved"]).map String.data

/-- The per-line keep decision of filterBoilerplateLines, src/email-processor.js
lines 84 to 92: short lines, keyword lines and contact lines are all dropped
unconditionally. -/
def keepLine (l : List Char) : Bool :=
  if l.length < 5 then false
  else
    let low := l.map Char.toLower
    if footerKeywords.any (fun k => JsStr.isSubL k low) then false
    else if JsStr.hasEmailPat l then false
    else if JsStr.hasPhonePat l then false
    else if JsStr.hasURLPat l then false
    else true

/-- Source: filterBoilerplateLines, src/email-processor.js lines 75 to 95:
split on newlines, trim each line, keep by keepLine, join and trim. -/
def filterBoilerplateLines (s : String) : String :=
  ⟨JsStr.trimB (List.intercalate ['\n']
    (((JsStr.splitCh '\n' s.data).map JsStr.trimB).filter keepLine))⟩

end EmailProcessor

namespace GmailAuth

/-- The three keyword targets of the boilerplate lead regex of
src/gmail-auth.js line 977. -/
def patTargets : List (List Char) :=
  ["unsubscribe", "privacy", "copyright"].map String.data

/-- One of the lead-regex targets starts exactly here. -/
def isTargetAt (l : List Char) : Bool := patTargets.any (fun k => k.isPrefixOf l)

/-- Up to k groups of word characters followed by whitespace, then a target:
the middle of the lead regex.  The word class, the whitespace class and the
position after them force each group to be a maximal run, so only the group
count is searched. -/
def wordGroupsThen : Nat → List Char → Bool
  | 0, l => isTargetAt l
  | k + 1, l =>
    isTargetAt l ||
    (let w := l.takeWhile JsStr.isWordCh
     let r1 := l.drop w.length
     let sp := r1.takeWhile JsStr.wsJS
     let r2 := r1.drop sp.length
     decide (w ≠ []) && decide (sp ≠ []) && wordGroupsThen k r2)

/-- The anchored lead regex of src/gmail-auth.js line 977 on the lowercased
line: any run of non-letters, then up to four word groups, then a target.
Every split point inside the leading non-letter run is tried. -/
def leadScan : List Char → Bool
  | [] => false
  | c :: cs => wordGroupsThen 4 (c :: cs) || (!c.isAlpha && leadScan cs)

/-- Footer keyword list of filterBoilerplateLines, src/gmail-auth.js lines 961
to 965 (no contact-us keyword in this variant). -/
def gaKeywords : List (List Char) :=
  (["unsubscribe", "privacy policy", "terms and conditions",
    "view in browser", "sent from my", "this email was sent by", "copyright",
    "all rights reserved"]).map String.data

/-- The per-line keep decision of filterBoilerplateLines, src/gmail-auth.js
lines 970 to 981: a keyword line survives when it is longer than 100
characters or does not match the boilerplate lead regex. -/
def keepLine (l : List Char) : Bool :=
  if l.length < 5 then false
  else
    let low := l.map Char.toLower
    if gaKeywords.any (fun k => JsStr.isSubL k low) then
      (100 < l.length) || !leadScan low
    else true

/-- Source: filterBoilerplateLines, src/gmail-auth.js lines 960 to 983: split
on newlines, trim each line, keep by keepLine, join (no final trim in this
variant). -/
def filterBoilerplateLines (s : String) : String :=
  ⟨List.intercalate ['\n']
    (((JsStr.splitCh '\n' s.data).map JsStr.trimB).filter keepLine)⟩

end GmailAuth

example : GmailAuth.leadScan "please unsubscribe here".data = true := by decide
example : GmailAuth.leadScan " - to unsubscribe click".data = true := by decide
example : GmailAuth.leadScan
    "the newsletter team explained that readers who wish to unsubscribe".data
    = false := by decide
example : GmailAuth.filterBoilerplateLines "Hello there\nUnsubscribe now" =
    "Hello there" := by decide
example : EmailProcessor.filterBoilerplateLines "Hello there\nUnsubscribe now" =
    "Hello there" := by decide

theorem sigStart_none (lines : List (List Char)) (h : sigStart lines = none) :
    ∀ l ∈ lines, JsStr.isSigLine l = false := by
  induction lines with
  | nil => intro l hl; cases hl
  | cons a ls ih =>
    intro l hl
    simp only [sigStart] at h
    cases hs : sigStart ls with
    | some i => rw [hs] at h; cases h
    | none =>
      rw [hs] at h
      by_cases ha : JsStr.isSigLine a
      · rw [if_pos ha] at h; cases h
      · cases hl with
        | head => simpa using ha
        | tail _ hm => exact ih hs l hm

theorem sigStart_last (lines : List (List Char)) :
    ∀ i, sigStart lines = some i →
      i < lines.length ∧ JsStr.isSigLine (lines.getD i []) = true ∧
      ∀ j, i < j → j < lines.length → JsStr.isSigLine (lines.getD j []) = false := by
  induction lines with
  | nil => intro i h; cases h
  | cons a ls ih =>
    intro i h
    simp only [sigStart] at h
    cases hs : sigStart ls with
    | some i0 =>
      rw [hs] at h
      injection h with h
      subst h
      obtain ⟨h1, h2, h3⟩ := ih i0 hs
      refine ⟨by simpa using Nat.succ_lt_succ h1, by simpa using h2, ?_⟩
      intro j hj hjl
      cases j with
      | zero => omega
      | succ j2 =>
        have := h3 j2 (by omega) (by simpa using Nat.lt_of_succ_lt_succ hjl)
        simpa using this
    | none =>
      rw [hs] at h
      by_cases ha : JsStr.isSigLine a
      · rw [if_pos ha] at h
        injection h with h
        subst h
        refine ⟨by simp, by simpa using ha, ?_⟩
        intro j hj hjl
        cases j with
        | zero => omega
        | succ j2 =>
          have hlt : j2 < ls.length := by simpa using Nat.lt_of_succ_lt_succ hjl
          have hmem : ls.getD j2 [] ∈ ls := by
            rw [List.getD_eq_getElem ls [] hlt]
            exact List.getElem_mem hlt
          simpa using sigStart_none ls hs _ hmem
      · rw [if_neg ha] at h; cases h

/-- Claim C6 (amended): the signature scan of cleanPlainText marks the largest
index, that is the first line found scanning backward from the end, whose
trimmed form starts with two dashes (not only the exact two-dash delimiter) or
matches the closing-salutation pattern, and that line and everything after it
are dropped; when no line matches, the gmail-auth variant passes the text
through after blank-line removal and whitespace normalization, while the
email-processor variant additionally drops every line containing an email
address, phone number or URL; the spec example cleans to the expected value in
both variants. -/
theorem claim_C6_cleanPlainText_signature_cut :
    (∀ (lines : List (List Char)) (i : Nat), sigStart lines = some i →
      i < lines.length ∧ JsStr.isSigLine (lines.getD i []) = true ∧
      ∀ j, i < j → j < lines.length → JsStr.isSigLine (lines.getD j []) = false) ∧
    (∀ s : String, s ≠ "" → ∀ i, sigStart (JsStr.splitCh '\n' s.data) = some i →
      GmailAuth.cleanPlainText s = normalizeWhitespace ⟨List.intercalate ['\n']
        (((JsStr.splitCh '\n' s.data).take i).filter (fun l => decide (JsStr.trimB l ≠ [])))⟩) ∧
    (∀ s : String, s ≠ "" → sigStart (JsStr.splitCh '\n' s.data) = none →
      GmailAuth.cleanPlainText s = normalizeWhitespace ⟨List.intercalate ['\n']
        ((JsStr.splitCh '\n' s.data).filter (fun l => decide (JsStr.trimB l ≠ [])))⟩) ∧
    (∀ s : String, s ≠ "" → sigStart (JsStr.splitCh '\n' s.data) = none →
      EmailProcessor.cleanPlainText s = normalizeWhitespace ⟨List.intercalate ['\n']
        ((JsStr.splitCh '\n' s.data).filter (fun l =>
          !JsStr.hasEmailPat (JsStr.trimB l) && !JsStr.hasPhonePat (JsStr.trimB l) &&
          !JsStr.hasURLPat (JsStr.trimB l)))⟩) ∧
    EmailProcessor.cleanPlainText "Hi team\n\nBest regards,\nJohn\n555-123-4567" =
      "Hi team" ∧
    GmailAuth.cleanPlainText "Hi team\n\nBest regards,\nJohn\n555-123-4567" =
      "Hi team" := by
  refine ⟨sigStart_last, ?_, ?_, ?_, by decide, by decide⟩
  · intro s hs i hi
    simp [GmailAuth.cleanPlainText, hs, hi]
  · intro s hs hi
    simp [GmailAuth.cleanPlainText, hs, hi]
  · intro s hs hi
    simp [EmailProcessor.cleanPlainText, hs, hi]

/-- Claim C6 counterexample: a line that starts with two dashes but is not
exactly the two-dash delimiter still triggers the signature cut, so the claim
as stated (cut only at an exact two-dash delimiter line, otherwise pass
through) is false on the code: both variants return the first line only. -/
theorem claim_C6_counterexample :
    EmailProcessor.cleanPlainText "Hi\n--sig\nJohn" = "Hi" ∧
    GmailAuth.cleanPlainText "Hi\n--sig\nJohn" = "Hi" ∧
    ("--sig" : String) ≠ "--" ∧
    JsStr.isSigLine "--sig".data = true ∧
    ("Hi" : String) ≠ "Hi\n--sig\nJohn" := by decide

/-- Witness for claim C6: the theorem applied at concrete inputs, once with a
signature line present and once without. -/
theorem claim_C6_cleanPlainText_signature_cut_witness :
    GmailAuth.cleanPlainText "Hi team\n\nBest regards,\nJohn\n555-123-4567" =
      normalizeWhitespace ⟨List.intercalate ['\n']
        ((("Hi team\n\nBest regards,\nJohn\n555-123-4567" : String).data |> JsStr.splitCh '\n').take 2
          |>.filter (fun l => decide (JsStr.trimB l ≠ [])))⟩ ∧
    GmailAuth.cleanPlainText "Hello world\nsecond line" =
      normalizeWhitespace ⟨List.intercalate ['\n']
        ((("Hello world\nsecond line" : String).data |> JsStr.splitCh '\n').filter
          (fun l => decide (JsStr.trimB l ≠ [])))⟩ ∧
    EmailProcessor.cleanPlainText "Hello world\nsecond line" =
      normalizeWhitespace ⟨List.intercalate ['\n']
        ((("Hello world\nsecond line" : String).data |> JsStr.splitCh '\n').filter (fun l =>
          !JsStr.hasEmailPat (JsStr.trimB l) && !JsStr.hasPhonePat (JsStr.trimB l) &&
          !JsStr.hasURLPat (JsStr.trimB l)))⟩ := by
  refine ⟨?_, ?_, ?_⟩
  · exact claim_C6_cleanPlainText_signature_cut.2.1
      "Hi team\n\nBest regards,\nJohn\n555-123-4567" (by decide) 2 (by decide)
  · exact claim_C6_cleanPlainText_signature_cut.2.2.1
      "Hello world\nsecond line" (by decide) (by decide)
  · exact claim_C6_cleanPlainText_signature_cut.2.2.2.1
      "Hello world\nsecond line" (by decide) (by decide)

/-- The test of the regex of escapeCSVField: the field contains a quote, a
comma or a newline. -/
def needsQuote (l : List Char) : Bool :=
  l.any (fun c => c = '"' || c = ',' || c = '\n')

/-- str.replace of every quote by two quotes. -/
def dblQuotes : List Char → List Char
  | [] => []
  | c :: cs => if c = '"' then '"' :: '"' :: dblQuotes cs else c :: dblQuotes cs

/-- Source: escapeCSVField, src/email-processor.js lines 279 to 286 (identical
copy at src/gmail-auth.js lines 1155 to 1162).  null and undefined map to the
empty string; a string containing a quote, comma or newline is wrapped in
quotes with inner quotes doubled; all other strings pass through. -/
def escapeCSVField (field : Option String) : String :=
  match field with
  | none => ""
  | some s => if needsQuote s.data then ⟨'"' :: (dblQuotes s.data ++ ['"'])⟩ else s

/-- Modelled from the spec: a standard CSV reader for one quoted field body;
a doubled quote stands for one quote character and a single quote closes the
field. -/
def csvReadQuoted : List Char → List Char
  | [] => []
  | '"' :: '"' :: rest => '"' :: csvReadQuoted rest
  | '"' :: _ => []
  | c :: rest => c :: csvReadQuoted rest

/-- Modelled from the spec: a standard CSV reader for a single serialized
field (RFC 4180 shape): a field beginning with a quote is read as a quoted
field, any other field is taken verbatim. -/
def csvReadField (s : String) : String :=
  match s.data with
  | '"' :: rest => ⟨csvReadQuoted rest⟩
  | _ => s

/-- Concatenation of a list of strings (String.join of the run-time library,
written recursively so that proofs unfold it). -/
def strConcat : List String → String
  | [] => ""
  | s :: rest => s ++ strConcat rest

theorem csvReadQuoted_dblQuotes (l : List Char) :
    csvReadQuoted (dblQuotes l ++ ['"']) = l := by
  induction l with
  | nil => rfl
  | cons c cs ih =>
    by_cases hc : c = '"'
    · subst hc
      simpa [dblQuotes, csvReadQuoted] using ih
    · simpa [dblQuotes, csvReadQuoted, hc] using ih

/-- Claim C1: escapeCSVField quotes with doubled inner quotes exactly when the
field contains a quote, comma or newline, passes every other field through
unchanged, and a standard CSV read of the escaped field restores the original
string, in particular on the spec example field. -/
theorem claim_C1_escapeCSVField_round_trip :
    (∀ s : String, csvReadField (escapeCSVField (some s)) = s) ∧
    (∀ s : String, needsQuote s.data = false → escapeCSVField (some s) = s) ∧
    (∀ s : String, needsQuote s.data = true →
      escapeCSVField (some s) = ⟨'"' :: (dblQuotes s.data ++ ['"'])⟩) ∧
    escapeCSVField (some "a,\"b\"\nc") = "\"a,\"\"b\"\"\nc\"" ∧
    csvReadField (escapeCSVField (some "a,\"b\"\nc")) = "a,\"b\"\nc" := by
  have hround : ∀ s : String, csvReadField (escapeCSVField (some s)) = s := by
    intro s
    by_cases hq : needsQuote s.data
    · simp only [escapeCSVField, if_pos hq]
      show csvReadField ⟨'"' :: (dblQuotes s.data ++ ['"'])⟩ = s
      simp only [csvReadField]
      rw [csvReadQuoted_dblQuotes]
    · simp only [escapeCSVField, if_neg hq]
      cases hd : s.data with
      | nil =>
        simp only [csvReadField, hd]
      | cons c rest =>
        have hcq : c ≠ '"' := by
          intro hc
          subst hc
          rw [hd] at hq
          simp [needsQuote] at hq
        simp only [csvReadField, hd]
        split
        · rename_i heq
          exact absurd (List.head_eq_of_cons_eq heq) hcq
        · rfl
  refine ⟨hround, ?_, ?_, by decide, by decide⟩
  · intro s h
    simp [escapeCSVField, h]
  · intro s h
    simp [escapeCSVField, h]

/-- Witness for claim C1: the theorem applied at concrete fields with and
without characters that force quoting. -/
theorem claim_C1_escapeCSVField_round_trip_witness :
    escapeCSVField (some "plain text") = "plain text" ∧
    escapeCSVField (some "a,b") = "\"a,b\"" ∧
    csvReadField (escapeCSVField (some "x\n\"y\"")) = "x\n\"y\"" := by
  refine ⟨?_, ?_, ?_⟩
  · exact claim_C1_escapeCSVField_round_trip.2.1 "plain text" (by decide)
  · have := claim_C1_escapeCSVField_round_trip.2.2.1 "a,b" (by decide)
    rw [this]; decide
  · exact claim_C1_escapeCSVField_round_trip.1 "x\n\"y\""

/-- The DecodedEmail record built by the pipelines; the source field names
from and to are Lean keywords and appear here as fromAddr and toAddr. -/
structure Email where
  id : String
  threadId : String
  date : String
  fromAddr : String
  toAddr : String
  subject : String
  body : String
deriving DecidableEq

/-- One CSV data row of the flat export: the seven escaped fields joined by
commas plus the newline, src/email-processor.js lines 357 to 365. -/
def csvRow (e : Email) : String :=
  String.intercalate "," [escapeCSVField (some e.id), escapeCSVField (some e.threadId),
    escapeCSVField (some e.date), escapeCSVField (some e.fromAddr),
    escapeCSVField (some e.toAddr), escapeCSVField (some e.subject),
    escapeCSVField (some e.body)] ++ "\n"

/-- The flat-export header row, src/email-processor.js line 352. -/
def csvHeader : String := "Message ID,Thread ID,Date,From,To,Subject,Body\n"

/-- One step of the buffered write loop of processEmailsToCSV,
src/email-processor.js lines 356 to 371.  The state is the file content
written so far and the pending buffer; the buffer is flushed once it exceeds
the threshold (1000000 in the source). -/
def csvStep (threshold : Nat) (st : String × String) (e : Email) : String × String :=
  let buf := st.2 ++ csvRow e
  if threshold < buf.length then (st.1 ++ buf, "") else (st.1, buf)

/-- The full file content produced by the write loop: header written first,
rows appended through the buffer, final non-empty buffer flushed at the end. -/
def csvContentWith (threshold : Nat) (emails : List Email) : String :=
  let st := emails.foldl (csvStep threshold) (csvHeader, "")
  st.1 ++ st.2

/-- The file content with the threshold of the source. -/
def csvFileContent (emails : List Email) : String := csvContentWith 1000000 emails

theorem csv_fold_invariant (threshold : Nat) :
    ∀ (es : List Email) (f b : String),
      (es.foldl (csvStep threshold) (f, b)).1 ++ (es.foldl (csvStep threshold) (f, b)).2 =
        f ++ b ++ strConcat (es.map csvRow) := by
  intro es
  induction es with
  | nil =>
    intro f b
    simp [strConcat]
  | cons e es ih =>
    intro f b
    simp only [List.foldl_cons, List.map_cons, strConcat]
    by_cases h : threshold < (b ++ csvRow e).length
    · simp only [csvStep, if_pos h]
      rw [ih]
      simp [String.append_assoc]
    · simp only [csvStep, if_neg h]
      rw [ih]
      simp [String.append_assoc]

/-- Claim C8: for every threshold placement of the buffered chunk flushes, the
flat export writes exactly the header followed by one row per record in input
order; with the 1 MB threshold of the source this is the produced file, and
the number of rows equals the number of records. -/
theorem claim_C8_csv_chunked_rows :
    (∀ (threshold : Nat) (emails : List Email),
      csvContentWith threshold emails = csvHeader ++ strConcat (emails.map csvRow)) ∧
    (∀ emails : List Email, csvFileContent emails = csvContentWith 1000000 emails) ∧
    (∀ emails : List Email, (emails.map csvRow).length = emails.length) := by
  refine ⟨?_, fun _ => rfl, fun emails => List.length_map _ _⟩
  intro threshold emails
  show (emails.foldl (csvStep threshold) (csvHeader, "")).1 ++
      (emails.foldl (csvStep threshold) (csvHeader, "")).2 =
      csvHeader ++ strConcat (emails.map csvRow)
  rw [csv_fold_invariant]
  simp

/-- Stable insertion of x into an already processed list: x passes every
element that may stay before it (comparator at most zero) and stops before the
first element that must come after it. -/
def insertOrd {α : Type} (le : α → α → Bool) (x : α) : List α → List α
  | [] => [x]
  | y :: ys => if le y x then y :: insertOrd le x ys else x :: y :: ys

/-- Stable sort by repeated insertion in input order.  ECMAScript requires
Array.prototype.sort to be stable and leaves the order produced by an
inconsistent comparator implementation-defined; this model fixes stable
insertion order. -/
def sortOrd {α : Type} (le : α → α → Bool) (l : List α) : List α :=
  l.foldl (fun acc x => insertOrd le x acc) []

/-- The comparator of organizeEmailsByThread, src/gmail-auth.js line 1181:
new Date(a.date) minus new Date(b.date).  An invalid date gives NaN and the
sort treats a NaN comparator value as zero, so a pair with an unparsable date
compares as equal; le a b states that the comparator value is at most zero.
The host date parser (new Date) is the parameter parse, none standing for an
invalid date. -/
def dateLe (parse : String → Option Int) (a b : Email) : Bool :=
  match parse a.date, parse b.date with
  | some x, some y => decide (x ≤ y)
  | _, _ => true

/-- One step of the grouping loop of organizeEmailsByThread, src/gmail-auth.js
lines 1172 to 1177: push the record onto its thread group, creating the group
at the end on first sight of the thread id. -/
def pushThread (acc : List (String × List Email)) (e : Email) :
    List (String × List Email) :=
  if acc.any (fun p => p.1 == e.threadId) then
    acc.map (fun p => if p.1 == e.threadId then (p.1, p.2 ++ [e]) else p)
  else acc ++ [(e.threadId, [e])]

/-- Source: organizeEmailsByThread, src/gmail-auth.js lines 1169 to 1185:
group by thread id in first-seen order, then sort every group by parsed date.
(Object key enumeration is insertion order for the non-numeric Gmail
thread-id strings.) -/
def organizeEmailsByThread (parse : String → Option Int) (emails : List Email) :
    List (String × List Email) :=
  (emails.foldl pushThread []).map (fun p => (p.1, sortOrd (dateLe parse) p.2))

/-- First-seen order of the distinct thread ids of the input. -/
def seenKeys (emails : List Email) : List String :=
  emails.foldl
    (fun acc e => if acc.contains e.threadId then acc else acc ++ [e.threadId]) []

theorem beqStrD (a b : String) : (a == b) = decide (a = b) := by
  by_cases h : a = b <;> simp [h]

theorem anyKeysMap (f : String → List Email) (t : String) :
    ∀ ks : List String,
      ((ks.map (fun k => (k, f k))).any (fun p => p.1 == t)) = decide (t ∈ ks) := by
  intro ks
  induction ks with
  | nil => simp
  | cons k ksr ih =>
    simp only [List.map_cons, List.any_cons]
    rw [ih]
    simp [beqStrD, eq_comm]

theorem fold_pushThread_shape :
    ∀ (es : List Email) (ks : List String) (f : String → List Email),
      (∀ t, t ∉ ks → f t = []) →
      es.foldl pushThread (ks.map (fun t => (t, f t))) =
        (es.foldl (fun acc e => if acc.contains e.threadId then acc
            else acc ++ [e.threadId]) ks).map
          (fun t => (t, f t ++ es.filter (fun e => e.threadId == t))) := by
  intro es
  induction es with
  | nil =>
    intro ks f _
    simp
  | cons e es ih =>
    intro ks f hf
    simp only [List.foldl_cons]
    by_cases hk : e.threadId ∈ ks
    · have hany : (ks.map (fun t => (t, f t))).any (fun p => p.1 == e.threadId) = true := by
        rw [anyKeysMap]
        exact decide_eq_true hk
      have hpush : pushThread (ks.map (fun t => (t, f t))) e =
          ks.map (fun t => (t, if t = e.threadId then f t ++ [e] else f t)) := by
        simp only [pushThread, hany, if_true]
        rw [List.map_map]
        apply List.map_congr_left
        intro t _
        by_cases ht : t = e.threadId
        · subst ht
          simp [Function.comp]
        · simp [Function.comp, beqStrD, ht]
      rw [hpush]
      have hg : ∀ t, t ∉ ks → (if t = e.threadId then f t ++ [e] else f t) = [] := by
        intro t htk
        have hne : t ≠ e.threadId := fun hteq => htk (hteq ▸ hk)
        simp [hne, hf t htk]
      rw [ih ks _ hg]
      have hkeep : (if ks.contains e.threadId then ks else ks ++ [e.threadId]) = ks := by
        simp [hk]
      rw [hkeep]
      apply List.map_congr_left
      intro t _
      by_cases ht : t = e.threadId
      · subst ht
        simp [List.filter_cons, beqStrD, List.append_assoc]
      · have hne2 : ¬ e.threadId = t := fun hx => ht hx.symm
        simp [List.filter_cons, beqStrD, hne2, ht]
    · have hany : (ks.map (fun t => (t, f t))).any (fun p => p.1 == e.threadId) = false := by
        rw [anyKeysMap]
        exact decide_eq_false hk
      have hpush : pushThread (ks.map (fun t => (t, f t))) e =
          (ks ++ [e.threadId]).map
            (fun t => (t, if t = e.threadId then [e] else f t)) := by
        simp only [pushThread, hany, Bool.false_eq_true, if_false]
        rw [List.map_append]
        congr 1
        · apply List.map_congr_left
          intro t htm
          have hne : t ≠ e.threadId := fun hteq => hk (hteq ▸ htm)
          simp [hne]
        · simp
      rw [hpush]
      have hg : ∀ t, t ∉ ks ++ [e.threadId] →
          (if t = e.threadId then [e] else f t) = [] := by
        intro t htk
        simp only [List.mem_append, List.mem_singleton, not_or] at htk
        simp [htk.2, hf t htk.1]
      rw [ih (ks ++ [e.threadId]) _ hg]
      have hkeep : (if ks.contains e.threadId then ks else ks ++ [e.threadId]) =
          ks ++ [e.threadId] := by
        simp [hk]
      rw [hkeep]
      apply List.map_congr_left
      intro t _
      by_cases ht : t = e.threadId
      · subst ht
        simp [List.filter_cons, beqStrD, hf _ hk]
      · have hne2 : ¬ e.threadId = t := fun hx => ht hx.symm
        simp [List.filter_cons, beqStrD, hne2, ht]

theorem organize_shape (parse : String → Option Int) (es : List Email) :
    organizeEmailsByThread parse es =
      (seenKeys es).map
        (fun t => (t, sortOrd (dateLe parse) (es.filter (fun e => e.threadId == t)))) := by
  unfold organizeEmailsByThread seenKeys
  have h := fold_pushThread_shape es [] (fun _ => []) (fun _ _ => rfl)
  simp only [List.map_nil] at h
  rw [h, List.map_map]
  apply List.map_congr_left
  intro t _
  simp [Function.comp]

theorem seenKeys_nodup (es : List Email) : (seenKeys es).Nodup := by
  suffices h : ∀ (l : List Email) (acc : List String), acc.Nodup →
      (l.foldl (fun acc e => if acc.contains e.threadId then acc
        else acc ++ [e.threadId]) acc).Nodup by
    exact h es [] List.nodup_nil
  intro l
  induction l with
  | nil => intro acc h; exact h
  | cons e l ih =>
    intro acc h
    simp only [List.foldl_cons]
    by_cases hk : e.threadId ∈ acc
    · have hkeep : (if acc.contains e.threadId then acc else acc ++ [e.threadId]) = acc := by
        simp [hk]
      rw [hkeep]
      exact ih acc h
    · have hkeep : (if acc.contains e.threadId then acc else acc ++ [e.threadId]) =
          acc ++ [e.threadId] := by
        simp [hk]
      rw [hkeep]
      apply ih
      rw [List.nodup_append]
      refine ⟨h, List.nodup_singleton _, ?_⟩
      intro t htm htm2
      simp only [List.mem_singleton] at htm2
      subst htm2
      exact hk htm

theorem insertOrd_perm {α : Type} (le : α → α → Bool) (x : α) :
    ∀ l : List α, (insertOrd le x l).Perm (x :: l) := by
  intro l
  induction l with
  | nil => exact List.Perm.refl _
  | cons y ys ih =>
    by_cases h : le y x
    · simp only [insertOrd, h, ite_true]
      exact ((ih.cons y).trans (List.Perm.swap x y ys))
    · simp only [insertOrd, h, Bool.false_eq_true, ite_false]
      exact List.Perm.refl _

theorem foldl_insertOrd_perm {α : Type} (le : α → α → Bool) :
    ∀ (l acc : List α),
      (l.foldl (fun acc x => insertOrd le x acc) acc).Perm (acc ++ l) := by
  intro l
  induction l with
  | nil => intro acc; simp
  | cons x l ih =>
    intro acc
    simp only [List.foldl_cons]
    refine (ih (insertOrd le x acc)).trans ?_
    have h1 : (insertOrd le x acc ++ l).Perm ((x :: acc) ++ l) :=
      (insertOrd_perm le x acc).append_right l
    refine h1.trans ?_
    simpa using List.perm_middle.symm

theorem sortOrd_perm {α : Type} (le : α → α → Bool) (l : List α) :
    (sortOrd le l).Perm l := by
  simpa using foldl_insertOrd_perm le l []

theorem mem_insertOrd {α : Type} (le : α → α → Bool) (x y : α) (l : List α) :
    y ∈ insertOrd le x l ↔ y = x ∨ y ∈ l := by
  have h := (insertOrd_perm le x l).mem_iff (a := y)
  simpa using h

theorem insertOrd_pairwise {α : Type} (le : α → α → Bool) (P : α → Prop)
    (htot : ∀ a b, P a → P b → le a b = true ∨ le b a = true)
    (htrans : ∀ a b c, P a → P b → P c → le a b = true → le b c = true →
      le a c = true)
    (x : α) (hx : P x) :
    ∀ l : List α, (∀ y ∈ l, P y) →
      l.Pairwise (fun a b => le a b = true) →
      (insertOrd le x l).Pairwise (fun a b => le a b = true) := by
  intro l
  induction l with
  | nil =>
    intro _ _
    simp [insertOrd]
  | cons y ys ih =>
    intro hP hpw
    rw [List.pairwise_cons] at hpw
    obtain ⟨hy_all, hpw_ys⟩ := hpw
    by_cases h : le y x
    · simp only [insertOrd, h, ite_true]
      rw [List.pairwise_cons]
      constructor
      · intro z hz
        rw [mem_insertOrd] at hz
        cases hz with
        | inl hzx => subst hzx; exact h
        | inr hzm => exact hy_all z hzm
      · exact ih (fun z hz => hP z (List.mem_cons_of_mem y hz)) hpw_ys
    · simp only [insertOrd, h, Bool.false_eq_true, ite_false]
      rw [List.pairwise_cons]
      constructor
      · intro z hz
        cases hz with
        | head =>
          rcases htot x y hx (hP y (List.mem_cons_self y ys)) with hxy | hyx
          · exact hxy
          · exact absurd hyx (by simpa using h)
        | tail _ hzm =>
          have hxy : le x y = true := by
            rcases htot x y hx (hP y (List.mem_cons_self y ys)) with hxy | hyx
            · exact hxy
            · exact absurd hyx (by simpa using h)
          exact htrans x y z hx (hP y (List.mem_cons_self y ys))
            (hP z (List.mem_cons_of_mem y hzm)) hxy (hy_all z hzm)
      · rw [List.pairwise_cons]
        exact ⟨hy_all, hpw_ys⟩

theorem sortOrd_pairwise {α : Type} (le : α → α → Bool) (P : α → Prop)
    (htot : ∀ a b, P a → P b → le a b = true ∨ le b a = true)
    (htrans : ∀ a b c, P a → P b → P c → le a b = true → le b c = true →
      le a c = true) :
    ∀ l : List α, (∀ x ∈ l, P x) →
      (sortOrd le l).Pairwise (fun a b => le a b = true) := by
  suffices h : ∀ (l acc : List α), (∀ x ∈ l, P x) → (∀ y ∈ acc, P y) →
      acc.Pairwise (fun a b => le a b = true) →
      (l.foldl (fun acc x => insertOrd le x acc) acc).Pairwise
        (fun a b => le a b = true) by
    intro l hl
    exact h l [] hl (by intro y hy; cases hy) List.Pairwise.nil
  intro l
  induction l with
  | nil => intro acc _ _ hpw; exact hpw
  | cons x l ih =>
    intro acc hl hacc hpw
    simp only [List.foldl_cons]
    have hx : P x := hl x (List.mem_cons_self x l)
    apply ih
    · intro z hz; exact hl z (List.mem_cons_of_mem x hz)
    · intro y hy
      rw [mem_insertOrd] at hy
      cases hy with
      | inl hyx => subst hyx; exact hx
      | inr hym => exact hacc y hym
    · exact insertOrd_pairwise le P htot htrans x hx acc hacc hpw

theorem insertOrd_all_le {α : Type} (le : α → α → Bool) (x : α) :
    ∀ l : List α, (∀ y ∈ l, le y x = true) → insertOrd le x l = l ++ [x] := by
  intro l
  induction l with
  | nil => intro _; rfl
  | cons y ys ih =>
    intro h
    have hy : le y x = true := h y (List.mem_cons_self y ys)
    simp only [insertOrd, hy, ite_true, List.cons_append]
    rw [ih (fun z hz => h z (List.mem_cons_of_mem y hz))]

theorem sortOrd_id_of_all {α : Type} (le : α → α → Bool) :
    ∀ l : List α, (∀ x ∈ l, ∀ y ∈ l, le y x = true) → sortOrd le l = l := by
  suffices h : ∀ (l acc : List α),
      (∀ x ∈ l, ∀ y ∈ acc, le y x = true) →
      (∀ x ∈ l, ∀ y ∈ l, le y x = true) →
      l.foldl (fun acc x => insertOrd le x acc) acc = acc ++ l by
    intro l hl
    simpa using h l [] (by intro x _ y hy; cases hy) hl
  intro l
  induction l with
  | nil => intro acc _ _; simp
  | cons x l ih =>
    intro acc hcross hwithin
    simp only [List.foldl_cons]
    rw [insertOrd_all_le le x acc (hcross x (List.mem_cons_self x l))]
    rw [ih (acc ++ [x])]
    · simp
    · intro z hz y hy
      rw [List.mem_append] at hy
      cases hy with
      | inl hya => exact hcross z (List.mem_cons_of_mem x hz) y hya
      | inr hyx =>
        simp only [List.mem_singleton] at hyx
        rw [hyx]
        exact hwithin z (List.mem_cons_of_mem x hz) x (List.mem_cons_self x l)
    · intro z hz y hy
      exact hwithin z (List.mem_cons_of_mem x hz) y (List.mem_cons_of_mem x hy)

/-- Claim C4 (amended): organizeEmailsByThread produces exactly one group per
distinct threadId in first-seen order (distinct keys, one group each); each
group is a permutation of the input records carrying that threadId; when every
record date parses, each group is sorted non-decreasingly by parsed date; a
group whose records all compare as equal (in particular all dates equal or
all dates unparsable) is left in input order; and a record with an unparsable
date compares as equal to every record in both directions: the comparator
value NaN is treated as zero, not as a lowest-priority value. -/
theorem claim_C4_organizeEmailsByThread_groups :
    (∀ (parse : String → Option Int) (es : List Email),
      (organizeEmailsByThread parse es).map Prod.fst = seenKeys es) ∧
    (∀ es : List Email, (seenKeys es).Nodup) ∧
    (∀ (parse : String → Option Int) (es : List Email),
      ∀ p ∈ organizeEmailsByThread parse es,
        p.2.Perm (es.filter (fun e => e.threadId == p.1))) ∧
    (∀ (parse : String → Option Int) (es : List Email),
      (∀ e ∈ es, (parse e.date).isSome) →
      ∀ p ∈ organizeEmailsByThread parse es,
        p.2.Pairwise (fun a b => dateLe parse a b = true)) ∧
    (∀ (parse : String → Option Int) (es : List Email),
      ∀ p ∈ organizeEmailsByThread parse es,
        (∀ x ∈ es.filter (fun e => e.threadId == p.1),
         ∀ y ∈ es.filter (fun e => e.threadId == p.1), dateLe parse y x = true) →
        p.2 = es.filter (fun e => e.threadId == p.1)) ∧
    (∀ (parse : String → Option Int) (a b : Email),
      parse a.date = none ∨ parse b.date = none →
      dateLe parse a b = true ∧ dateLe parse b a = true) := by
  have htot : ∀ (parse : String → Option Int) (a b : Email),
      (parse a.date).isSome = true → (parse b.date).isSome = true →
      dateLe parse a b = true ∨ dateLe parse b a = true := by
    intro parse a b ha hb
    rw [Option.isSome_iff_exists] at ha hb
    obtain ⟨x, hx⟩ := ha
    obtain ⟨y, hy⟩ := hb
    rcases Int.le_total x y with h | h
    · left; simp [dateLe, hx, hy, h]
    · right; simp [dateLe, hx, hy, h]
  have htrans : ∀ (parse : String → Option Int) (a b c : Email),
      (parse a.date).isSome = true → (parse b.date).isSome = true →
      (parse c.date).isSome = true → dateLe parse a b = true →
      dateLe parse b c = true → dateLe parse a c = true := by
    intro parse a b c ha hb hc hab hbc
    rw [Option.isSome_iff_exists] at ha hb hc
    obtain ⟨x, hx⟩ := ha
    obtain ⟨y, hy⟩ := hb
    obtain ⟨z, hz⟩ := hc
    simp only [dateLe, hx, hy, hz, decide_eq_true_eq] at hab hbc ⊢
    exact le_trans hab hbc
  refine ⟨?_, seenKeys_nodup, ?_, ?_, ?_, ?_⟩
  · intro parse es
    rw [organize_shape, List.map_map]
    show (seenKeys es).map (fun t => t) = seenKeys es
    exact List.map_id' _
  · intro parse es p hp
    rw [organize_shape] at hp
    rw [List.mem_map] at hp
    obtain ⟨t, _, hpe⟩ := hp
    rw [← hpe]
    exact sortOrd_perm _ _
  · intro parse es hall p hp
    rw [organize_shape] at hp
    rw [List.mem_map] at hp
    obtain ⟨t, _, hpe⟩ := hp
    rw [← hpe]
    apply sortOrd_pairwise (dateLe parse) (fun e => (parse e.date).isSome = true)
      (htot parse) (htrans parse)
    intro x hx
    exact hall x (List.mem_of_mem_filter hx)
  · intro parse es p hp hties
    rw [organize_shape] at hp
    rw [List.mem_map] at hp
    obtain ⟨t, _, hpe⟩ := hp
    have h1 : p.1 = t := by rw [← hpe]
    subst h1
    have h2 : p.2 = sortOrd (dateLe parse) (es.filter (fun e => e.threadId == p.1)) := by
      rw [← hpe]
    rw [h2]
    exact sortOrd_id_of_all _ _ (fun x hx y hy => hties x hx y hy)
  · intro parse a b h
    rcases h with h | h
    · cases hb : parse b.date <;> simp [dateLe, h, hb]
    · cases ha : parse a.date <;> simp [dateLe, h, ha]

/-- A concrete executable instance of the host date parser for witness
inputs: a nonempty all-digit string is read as a year number, anything else is
invalid.  On the strings used below this matches new Date, which orders plain
year strings chronologically and makes an invalid date of the empty string. -/
def yearParse (s : String) : Option Int :=
  if s.data ≠ [] ∧ s.data.all Char.isDigit then
    some ((s.data.foldl (fun n c => n * 10 + (c.toNat - 48)) 0 : Nat) : Int)
  else none

/-- Ordering on parsed dates taking an unparsable date as the lowest value,
the reading of the claim. -/
def optLeBot : Option Int → Option Int → Bool
  | none, _ => true
  | some _, none => false
  | some x, some y => decide (x ≤ y)

/-- Ordering on parsed dates taking an unparsable date as the highest value,
the other possible reading of the claim. -/
def optLeTop : Option Int → Option Int → Bool
  | _, none => true
  | none, some _ => false
  | some x, some y => decide (x ≤ y)

/-- Adjacent non-decrease of a list of parsed dates. -/
def chainLe (le : Option Int → Option Int → Bool) : List (Option Int) → Bool
  | a :: b :: r => le a b && chainLe le (b :: r)
  | _ => true

/-- Claim C4 counterexample: three same-thread records dated 2010, invalid and
2020 (year strings and the empty string; the host date parser new Date is
instantiated by yearParse, which orders these year strings chronologically
and rejects the empty string exactly as new Date does).  The sort leaves the
group in input order, so the group dates read 2010, invalid, 2020: not
non-decreasing whether the invalid date is taken as the lowest or the highest
value, refuting both the non-decreasing claim and the lowest-priority
treatment of invalid dates. -/
theorem claim_C4_counterexample :
    (organizeEmailsByThread yearParse
        [⟨"m1", "t1", "2010", "", "", "", ""⟩,
         ⟨"m2", "t1", "", "", "", "", ""⟩,
         ⟨"m3", "t1", "2020", "", "", "", ""⟩]).map
      (fun p => (p.1, p.2.map (fun e => yearParse e.date))) =
      [("t1", [some 2010, none, some 2020])] ∧
    chainLe optLeBot [some 2010, none, some 2020] = false ∧
    chainLe optLeTop [some 2010, none, some 2020] = false := by
  refine ⟨by decide, by decide, by decide⟩

/-- Witness for claim C4: the theorem applied at concrete inputs, a two-record
all-valid-dates thread sorted non-decreasingly and a two-record thread of
unparsable dates left in input order. -/
theorem claim_C4_organizeEmailsByThread_groups_witness :
    (("t1", [(⟨"m2", "t1", "2010", "", "", "", ""⟩ : Email),
             (⟨"m1", "t1", "2020", "", "", "", ""⟩ : Email)]) :
        String × List Email).2.Pairwise
      (fun a b => dateLe yearParse a b = true) ∧
    (("t2", [(⟨"m1", "t2", "", "", "", "", ""⟩ : Email),
             (⟨"m2", "t2", "", "", "", "", ""⟩ : Email)]) :
        String × List Email).2 =
      ([(⟨"m1", "t2", "", "", "", "", ""⟩ : Email),
        (⟨"m2", "t2", "", "", "", "", ""⟩ : Email)]).filter
        (fun e => e.threadId == "t2") := by
  constructor
  · exact claim_C4_organizeEmailsByThread_groups.2.2.2.1 yearParse
      [⟨"m1", "t1", "2020", "", "", "", ""⟩, ⟨"m2", "t1", "2010", "", "", "", ""⟩]
      (by decide)
      ("t1", [⟨"m2", "t1", "2010", "", "", "", ""⟩, ⟨"m1", "t1", "2020", "", "", "", ""⟩])
      (by decide)
  · exact claim_C4_organizeEmailsByThread_groups.2.2.2.2.1 yearParse
      [⟨"m1", "t2", "", "", "", "", ""⟩, ⟨"m2", "t2", "", "", "", "", ""⟩]
      ("t2", [⟨"m1", "t2", "", "", "", "", ""⟩, ⟨"m2", "t2", "", "", "", "", ""⟩])
      (by decide) (by decide)

/-- Claim C7 (amended): in the gmail-auth variant the keyword line filter drops
a line only when it is at most 100 characters long, and a dropped line of
length at least 5 both contains a keyword and matches the boilerplate lead
pattern; every keyword line longer than 100 characters is kept.  (The claim as
frozen is false of the email-processor variant, which drops every keyword line
regardless of length: see the counterexample.) -/
theorem claim_C7_filterBoilerplate_keyword_lines :
    (∀ s : String, GmailAuth.filterBoilerplateLines s = ⟨List.intercalate ['\n']
      (((JsStr.splitCh '\n' s.data).map JsStr.trimB).filter GmailAuth.keepLine)⟩) ∧
    (∀ l : List Char, GmailAuth.keepLine l = false → l.length ≤ 100) ∧
    (∀ l : List Char, GmailAuth.keepLine l = false → 5 ≤ l.length →
      GmailAuth.gaKeywords.any (fun k => JsStr.isSubL k (l.map Char.toLower)) = true ∧
      GmailAuth.leadScan (l.map Char.toLower) = true) ∧
    (∀ l : List Char,
      GmailAuth.gaKeywords.any (fun k => JsStr.isSubL k (l.map Char.toLower)) = true →
      100 < l.length → GmailAuth.keepLine l = true) := by
  refine ⟨fun s => rfl, ?_, ?_, ?_⟩
  · intro l h
    by_cases h5 : l.length < 5
    · omega
    · simp only [GmailAuth.keepLine, if_neg h5] at h
      by_cases hkw : GmailAuth.gaKeywords.any
          (fun k => JsStr.isSubL k (l.map Char.toLower)) = true
      · rw [if_pos hkw] at h
        simp only [Bool.or_eq_false_iff] at h
        have := h.1
        simp only [decide_eq_false_iff_not] at this
        omega
      · rw [if_neg hkw] at h
        cases h
  · intro l h h5
    have h5n : ¬ l.length < 5 := by omega
    simp only [GmailAuth.keepLine, if_neg h5n] at h
    by_cases hkw : GmailAuth.gaKeywords.any
        (fun k => JsStr.isSubL k (l.map Char.toLower)) = true
    · rw [if_pos hkw] at h
      simp only [Bool.or_eq_false_iff, Bool.not_eq_false'] at h
      exact ⟨hkw, h.2⟩
    · rw [if_neg hkw] at h
      cases h
  · intro l hkw h100
    have h5n : ¬ l.length < 5 := by omega
    simp only [GmailAuth.keepLine, if_neg h5n, if_pos hkw]
    simp [h100]

/-- Claim C7 counterexample: a 121-character line that mentions the unsubscribe
keyword amid real content (and does not match the boilerplate lead pattern) is
nevertheless dropped entirely by the email-processor variant of the filter, so
the claim as stated is false of that variant. -/
theorem claim_C7_counterexample :
    EmailProcessor.filterBoilerplateLines
      "The newsletter team explained that readers who wish to unsubscribe from the weekly digest should write to the postmaster first"
      = "" ∧
    100 < ("The newsletter team explained that readers who wish to unsubscribe from the weekly digest should write to the postmaster first" : String).length ∧
    GmailAuth.leadScan
      (("The newsletter team explained that readers who wish to unsubscribe from the weekly digest should write to the postmaster first" : String).data.map Char.toLower)
      = false := by decide

/-- Witness for claim C7: the theorem applied to the same long keyword line,
which the gmail-auth variant keeps. -/
theorem claim_C7_filterBoilerplate_keyword_lines_witness :
    GmailAuth.keepLine
      ("The newsletter team explained that readers who wish to unsubscribe from the weekly digest should write to the postmaster first" : String).data
      = true :=
  claim_C7_filterBoilerplate_keyword_lines.2.2.2
    ("The newsletter team explained that readers who wish to unsubscribe from the weekly digest should write to the postmaster first" : String).data
    (by decide) (by decide)

/-- The body field of a MessagePart; data none models an absent data field. -/
structure MsgBody where
  data : Option String
deriving DecidableEq

/-- A Gmail payload part as consumed by decodeEmailBody: every field may be
absent; parts with an empty list models an empty parts array (an array is
truthy in JS even when empty). -/
inductive MessagePart where
  | node (mimeType : Option String) (body : Option MsgBody)
      (parts : Option (List MessagePart))

/-- The mimeType field of a part. -/
def mimeOf : MessagePart → Option String
  | .node mt _ _ => mt

/-- The truthiness test part.body && part.body.data of the source: body and
data must both be present and the data string non-empty, because an empty JS
string is falsy. -/
def dataOf : Option MsgBody → Option String
  | some b =>
    match b.data with
    | some d => if d = "" then none else some d
    | none => none
  | none => none

namespace EmailProcessor

mutual
/-- Source: decodeEmailBody, src/email-processor.js lines 239 to 272, on one
part.  The host base64-to-utf8 decode (Buffer.from(..).toString) is the
parameter b64 and the HTML cleaning entry point applied to a raw HTML string
is the parameter cleanHtml; every theorem quantifies over both. -/
def decodePart (b64 cleanHtml : String → String) : MessagePart → String
  | .node mt body parts =>
    if mt = some "text/plain" ∧ (dataOf body).isSome then
      cleanPlainText (b64 ((dataOf body).getD ""))
    else if mt = some "text/html" ∧ (dataOf body).isSome then
      cleanHtml (b64 ((dataOf body).getD ""))
    else
      match parts with
      | none => ""
      | some ps =>
        if mt = some "multipart/alternative" then
          match decodeFound b64 cleanHtml "text/plain" ps with
          | some s => s
          | none =>
            match decodeFound b64 cleanHtml "text/html" ps with
            | some s => s
            | none => String.intercalate "\n" (decodeList b64 cleanHtml ps)
        else
          String.intercalate "\n" ((decodeList b64 cleanHtml ps).filter
            (fun t => decide (JsStr.trimB t.data ≠ [])))

/-- parts.find of the source fused with the decode of the found part: the
first part of the given mime type, decoded. -/
def decodeFound (b64 cleanHtml : String → String) (m : String) :
    List MessagePart → Option String
  | [] => none
  | p :: ps =>
    if mimeOf p = some m then some (decodePart b64 cleanHtml p)
    else decodeFound b64 cleanHtml m ps

/-- parts.map of the source fused with the decode. -/
def decodeList (b64 cleanHtml : String → String) : List MessagePart → List String
  | [] => []
  | p :: ps => decodePart b64 cleanHtml p :: decodeList b64 cleanHtml ps
end

/-- Source: decodeEmailBody on a possibly absent part (the null guard of
line 240). -/
def decodeEmailBody (b64 cleanHtml : String → String) :
    Option MessagePart → String
  | none => ""
  | some p => decodePart b64 cleanHtml p

theorem decodeList_eq_map (b64 cleanHtml : String → String) :
    ∀ ps : List MessagePart,
      decodeList b64 cleanHtml ps = ps.map (decodePart b64 cleanHtml) := by
  intro ps
  induction ps with
  | nil => rfl
  | cons p ps ih => simp [decodeList, ih]

theorem decodeFound_eq_find (b64 cleanHtml : String → String) (m : String) :
    ∀ ps : List MessagePart,
      decodeFound b64 cleanHtml m ps =
        (ps.find? (fun q => decide (mimeOf q = some m))).map
          (decodePart b64 cleanHtml) := by
  intro ps
  induction ps with
  | nil => rfl
  | cons p ps ih =>
    by_cases h : mimeOf p = some m
    · simp [decodeFound, h, List.find?_cons_of_pos]
    · simp only [decodeFound, h, if_false]
      rw [ih]
      rw [List.find?_cons_of_neg]
      simpa using h

end EmailProcessor

/-- Claim C2: decodeEmailBody is total, it returns a string for every finite
MessagePart tree including the null part, and absent body data degrades to the
empty string: a childless node decodes to the empty string whatever its mime
type when its body is missing, its data is missing, or its data is the empty
string. -/
theorem claim_C2_decodeEmailBody_total :
    (∀ (b64 cleanHtml : String → String) (p : Option MessagePart),
      ∃ s : String, EmailProcessor.decodeEmailBody b64 cleanHtml p = s) ∧
    (∀ b64 cleanHtml : String → String,
      EmailProcessor.decodeEmailBody b64 cleanHtml none = "") ∧
    (∀ (b64 cleanHtml : String → String) (mt : Option String),
      EmailProcessor.decodeEmailBody b64 cleanHtml
        (some (.node mt none none)) = "") ∧
    (∀ (b64 cleanHtml : String → String) (mt : Option String),
      EmailProcessor.decodeEmailBody b64 cleanHtml
        (some (.node mt (some ⟨none⟩) none)) = "") ∧
    (∀ (b64 cleanHtml : String → String) (mt : Option String),
      EmailProcessor.decodeEmailBody b64 cleanHtml
        (some (.node mt (some ⟨some ""⟩) none)) = "") := by
  refine ⟨fun b64 ch p => ⟨_, rfl⟩, fun _ _ => rfl, ?_, ?_, ?_⟩
  all_goals
    intro b64 ch mt
    simp [EmailProcessor.decodeEmailBody, EmailProcessor.decodePart, dataOf]

/-- Claim C3: on a multipart/alternative node carrying a parts array,
decodeEmailBody returns the decode of the first text/plain child when one
exists, whatever HTML children are present; with no plain child it returns the
decode of the first text/html child; with neither it joins the decoded
children with newlines; and when the first plain child is a data-carrying
leaf the result is exactly its cleaned plain text. -/
theorem claim_C3_decodeEmailBody_alternative :
    (∀ (b64 ch : String → String) (body : Option MsgBody)
       (ps : List MessagePart) (q : MessagePart),
      ps.find? (fun r => decide (mimeOf r = some "text/plain")) = some q →
      EmailProcessor.decodeEmailBody b64 ch
          (some (.node (some "multipart/alternative") body (some ps))) =
        EmailProcessor.decodeEmailBody b64 ch (some q)) ∧
    (∀ (b64 ch : String → String) (body : Option MsgBody)
       (ps : List MessagePart) (q : MessagePart),
      ps.find? (fun r => decide (mimeOf r = some "text/plain")) = none →
      ps.find? (fun r => decide (mimeOf r = some "text/html")) = some q →
      EmailProcessor.decodeEmailBody b64 ch
          (some (.node (some "multipart/alternative") body (some ps))) =
        EmailProcessor.decodeEmailBody b64 ch (some q)) ∧
    (∀ (b64 ch : String → String) (body : Option MsgBody)
       (ps : List MessagePart),
      ps.find? (fun r => decide (mimeOf r = some "text/plain")) = none →
      ps.find? (fun r => decide (mimeOf r = some "text/html")) = none →
      EmailProcessor.decodeEmailBody b64 ch
          (some (.node (some "multipart/alternative") body (some ps))) =
        String.intercalate "\n" (ps.map (EmailProcessor.decodePart b64 ch))) ∧
    (∀ (b64 ch : String → String) (body : Option MsgBody)
       (ps : List MessagePart) (qparts : Option (List MessagePart)) (d : String),
      d ≠ "" →
      ps.find? (fun r => decide (mimeOf r = some "text/plain")) =
        some (.node (some "text/plain") (some ⟨some d⟩) qparts) →
      EmailProcessor.decodeEmailBody b64 ch
          (some (.node (some "multipart/alternative") body (some ps))) =
        EmailProcessor.cleanPlainText (b64 d)) := by
  have hstep : ∀ (b64 ch : String → String) (body : Option MsgBody)
      (ps : List MessagePart),
      EmailProcessor.decodeEmailBody b64 ch
          (some (.node (some "multipart/alternative") body (some ps))) =
        (match EmailProcessor.decodeFound b64 ch "text/plain" ps with
         | some s => s
         | none =>
           match EmailProcessor.decodeFound b64 ch "text/html" ps with
           | some s => s
           | none => String.intercalate "\n"
               (EmailProcessor.decodeList b64 ch ps)) := by
    intro b64 ch body ps
    simp [EmailProcessor.decodeEmailBody, EmailProcessor.decodePart]
  refine ⟨?_, ?_, ?_, ?_⟩
  · intro b64 ch body ps q hfind
    rw [hstep]
    rw [EmailProcessor.decodeFound_eq_find, hfind]
    rfl
  · intro b64 ch body ps q hnone hfind
    rw [hstep]
    rw [EmailProcessor.decodeFound_eq_find, hnone,
      EmailProcessor.decodeFound_eq_find, hfind]
    rfl
  · intro b64 ch body ps hnone1 hnone2
    rw [hstep]
    rw [EmailProcessor.decodeFound_eq_find, hnone1,
      EmailProcessor.decodeFound_eq_find, hnone2]
    simp [EmailProcessor.decodeList_eq_map]
  · intro b64 ch body ps qparts d hd hfind
    rw [hstep]
    rw [EmailProcessor.decodeFound_eq_find, hfind]
    show EmailProcessor.decodePart b64 ch
        (.node (some "text/plain") (some ⟨some d⟩) qparts) =
      EmailProcessor.cleanPlainText (b64 d)
    have hdata : dataOf (some ⟨some d⟩) = some d := by simp [dataOf, hd]
    rw [EmailProcessor.decodePart.eq_def]
    simp only []
    rw [hdata, if_pos ⟨trivial, rfl⟩]
    rfl

/-- Witness for claim C3: the theorem applied to a concrete alternative node
holding an HTML child before a plain child, with identity decode parameters:
the plain child wins and yields its cleaned text. -/
theorem claim_C3_decodeEmailBody_alternative_witness :
    EmailProcessor.decodeEmailBody id id
        (some (.node (some "multipart/alternative") none
          (some [.node (some "text/html") (some ⟨some "<b>yo</b>"⟩) none,
                 .node (some "text/plain") (some ⟨some "Hi there"⟩) none]))) =
      EmailProcessor.decodeEmailBody id id
        (some (.node (some "text/plain") (some ⟨some "Hi there"⟩) none)) ∧
    EmailProcessor.decodeEmailBody id id
        (some (.node (some "multipart/alternative") none
          (some [.node (some "text/html") (some ⟨some "<b>yo</b>"⟩) none,
                 .node (some "text/plain") (some ⟨some "Hi there"⟩) none]))) =
      EmailProcessor.cleanPlainText (id "Hi there") := by
  constructor
  · exact claim_C3_decodeEmailBody_alternative.1 id id none
      [.node (some "text/html") (some ⟨some "<b>yo</b>"⟩) none,
       .node (some "text/plain") (some ⟨some "Hi there"⟩) none]
      (.node (some "text/plain") (some ⟨some "Hi there"⟩) none) (by rfl)
  · exact claim_C3_decodeEmailBody_alternative.2.2.2 id id none
      [.node (some "text/html") (some ⟨some "<b>yo</b>"⟩) none,
       .node (some "text/plain") (some ⟨some "Hi there"⟩) none]
      none "Hi there" (by decide) (by rfl)

/-- A node of the parsed HTML document: an element with tag name, class list,
optional href attribute and children, or a text node.  Parsing a raw HTML
string into this tree is the work of the cheerio host library and stays
outside the embedding; the cleaning pipelines below consume the parsed tree. -/
inductive HNode where
  | elem (tag : String) (classes : List String) (href : Option String)
      (children : List HNode)
  | text (s : String)

/-- The nine boilerplate class names of removeBoilerplate,
src/email-processor.js line 29 and src/gmail-auth.js line 914. -/
def boilerClasses : List String :=
  ["footer", "email-footer", "signature", "legal", "disclaimer",
   "footer-container", "email-bottom", "message-signature", "legal-notice"]

/-- The nine boilerplate keywords of the element sweep, lines 34 to 44 and
919 to 928. -/
def elemKeywords : List (List Char) :=
  (["unsubscribe", "privacy policy", "terms and conditions",
    "you received this email because", "view in browser", "sent from my",
    "this email was sent by", "copyright", "all rights reserved"]).map
    String.data

mutual
/-- cheerio .text() of one node: the concatenated text of the subtree. -/
def textContent : HNode → List Char
  | .text s => s.data
  | .elem _ _ _ ch => textContentList ch
/-- cheerio .text() over a node list. -/
def textContentList : List HNode → List Char
  | [] => []
  | n :: rest => textContent n ++ textContentList rest
end

/-- An anchor whose href contains unsubscribe, privacy or terms (line 50 and
line 935). -/
def isFooterLink : HNode → Bool
  | .elem tag _ (some h) _ =>
    tag = "a" && (JsStr.isSubL "unsubscribe".data h.data ||
      JsStr.isSubL "privacy".data h.data || JsStr.isSubL "terms".data h.data)
  | _ => false

mutual
/-- The tree effect of removeScriptAndStyle (line 19 and line 904), the regex
removal of script, style and noscript blocks from the raw string before
parsing, modelled on the parsed tree. -/
def stripScripts : List HNode → List HNode
  | [] => []
  | n :: rest => stripScriptsNode n ++ stripScripts rest
/-- One node under script removal: a removed element yields nothing. -/
def stripScriptsNode : HNode → List HNode
  | .text s => [.text s]
  | .elem tag cls href ch =>
    if tag = "script" ∨ tag = "style" ∨ tag = "noscript" then []
    else [.elem tag cls href (stripScripts ch)]
end

mutual
/-- Class-based removal, the first step of removeBoilerplate: every element
carrying one of the boilerplate class names is removed with its subtree. -/
def stripClasses : List HNode → List HNode
  | [] => []
  | n :: rest => stripClassesNode n ++ stripClasses rest
/-- One node under class-based removal. -/
def stripClassesNode : HNode → List HNode
  | .text s => [.text s]
  | .elem tag cls href ch =>
    if cls.any (fun c => boilerClasses.contains c) then []
    else [.elem tag cls href (stripClasses ch)]
end

mutual
/-- The keyword sweep of removeBoilerplate: the snapshot of all elements is
walked in document order and every element whose full text contains a keyword
(case-insensitively) is removed.  The text of a parent contains the text of
each descendant, so removing the topmost matching elements removes every
matching element; the cheerio-wrapped document keeps its html and body
wrapper elements in this sweep. -/
def stripKeywordElems : List HNode → List HNode
  | [] => []
  | n :: rest => stripKeywordNode n ++ stripKeywordElems rest
/-- One node under the keyword sweep. -/
def stripKeywordNode : HNode → List HNode
  | .text s => [.text s]
  | .elem tag cls href ch =>
    if elemKeywords.any (fun k =>
        JsStr.isSubL k ((textContentList ch).map Char.toLower)) then []
    else [.elem tag cls href (stripKeywordElems ch)]
end

mutual
/-- Footer-link parent removal: every element having a matching anchor among
its direct children is removed with its subtree. -/
def stripLinkParents : List HNode → List HNode
  | [] => []
  | n :: rest => stripLinkParentsNode n ++ stripLinkParents rest
/-- One node under footer-link parent removal. -/
def stripLinkParentsNode : HNode → List HNode
  | .text s => [.text s]
  | .elem tag cls href ch =>
    if ch.any isFooterLink then []
    else [.elem tag cls href (stripLinkParents ch)]
end

/-- A horizontal-rule element. -/
def isHrB : HNode → Bool
  | .elem tag _ _ _ => tag = "hr"
  | _ => false

mutual
/-- The horizontal-rule cut of removeBoilerplate (lines 53 to 54 and 938 to
939): nextAll().remove() removes, for each hr, all its following siblings,
and the hrs themselves are then removed, so each sibling list is cut at its
first hr; applied at every depth. -/
def cutHr : List HNode → List HNode
  | [] => []
  | n :: rest => if isHrB n then [] else cutHrNode n :: cutHr rest
/-- The hr cut inside one node. -/
def cutHrNode : HNode → HNode
  | .text s => .text s
  | .elem tag cls href ch => .elem tag cls href (cutHr ch)
end

/-- The tags rendered with block boundaries by the converter, covering the
document wrapper and the block elements of the inputs considered here. -/
def blockTags : List String := ["html", "head", "body", "p", "div"]

mutual
/-- Modelled from the html-to-text host library under the source options
(wordwrap false, preserveNewlines true, images ignored): text nodes are kept
verbatim, children are concatenated, block elements contribute surrounding
newlines.  Exact inter-block spacing differs from the library, but every
pipeline below normalizes whitespace, collapsing newline runs to a single
newline. -/
def renderNode : HNode → List Char
  | .text s => s.data
  | .elem tag _ _ ch =>
    if blockTags.contains tag then '\n' :: (renderList ch ++ ['\n'])
    else renderList ch
/-- Conversion of a node list to text. -/
def renderList : List HNode → List Char
  | [] => []
  | n :: rest => renderNode n ++ renderList rest
end

/-- cheerio.load wraps a fragment in html, head and body elements; the
pipelines serialize and convert the whole document. -/
def wrapDoc (input : List HNode) : List HNode :=
  [HNode.elem "html" [] none
    [HNode.elem "head" [] none [], HNode.elem "body" [] none input]]

/-- Source: decodeHTMLEntities (lines 111 to 118 and 999 to 1006).  As
written the last four replacements are identity; the first replaces the
two-character mojibake artifact, an A-circumflex of either case followed by a
space, with one space, case-insensitively. -/
def decEnt : List Char → List Char
  | c :: ' ' :: rest =>
    if c = 'Â' ∨ c = 'â' then ' ' :: decEnt rest
    else c :: decEnt (' ' :: rest)
  | c :: rest => c :: decEnt rest
  | [] => []

/-- The seven zero-width characters removed before normalization (line 160
and line 1047). -/
def invis1 (c : Char) : Bool :=
  c = '‌' || c = '​' || c = '‍' || c = '‎' ||
  c = '‏' || c = '⁠' || c = '﻿'

/-- The wider invisible and exotic space class removed after normalization
(line 166 and line 1053). -/
def invis2 (c : Char) : Bool :=
  (0x200b ≤ c.toNat && c.toNat ≤ 0x200d) || c = '⁠' || c = '﻿' ||
  c = ' ' || c = ' ' || c = '᠎' ||
  (0x2000 ≤ c.toNat && c.toNat ≤ 0x200a) || c = ' ' || c = ' ' ||
  c = '　'

/-- Generic fuel-driven global regex replacement by deletion: at each
position, when the matcher yields a match length those characters are dropped
and scanning resumes after them, else one character is kept.  The fuel is the
input length; every step consumes at least one character. -/
def delScan (mlen : List Char → Option Nat) : Nat → List Char → List Char
  | 0, l => l
  | _ + 1, [] => []
  | fuel + 1, c :: cs =>
    match mlen (c :: cs) with
    | some n => delScan mlen fuel ((c :: cs).drop n)
    | none => c :: delScan mlen fuel cs

/-- A global replace of the matched spans by the empty string. -/
def delAll (mlen : List Char → Option Nat) (l : List Char) : List Char :=
  delScan mlen l.length l

/-- Match length at the head for the bracket-run regex (lines 158 to 159 and
1045 to 1046): a bracket, whitespace, a bracket, whitespace, a bracket. -/
def brMatchLen (br : Char) (l : List Char) : Option Nat :=
  match l with
  | c1 :: rest1 =>
    if c1 = br then
      let sp1 := rest1.takeWhile JsStr.wsJS
      match rest1.drop sp1.length with
      | c2 :: rest2 =>
        if c2 = br then
          let sp2 := rest2.takeWhile JsStr.wsJS
          match rest2.drop sp2.length with
          | c3 :: _ =>
            if c3 = br then some (3 + sp1.length + sp2.length) else none
          | [] => none
        else none
      | [] => none
    else none
  | [] => none

/-- The protocol of the URL regexes at the head of l, with its length. -/
def protoLen (l : List Char) : Option Nat :=
  if "https://".data.isPrefixOf l then some 8
  else if "http://".data.isPrefixOf l then some 7
  else none

/-- One of the three tracking markers of the first URL regex starts here. -/
def markerAt (l : List Char) : Option Nat :=
  if "?utm_".data.isPrefixOf l then some 5
  else if "click".data.isPrefixOf l then some 5
  else if "link.".data.isPrefixOf l then some 5
  else none

/-- A marker with at least one character after it occurs somewhere in l. -/
def markerSearch : List Char → Bool
  | [] => false
  | c :: rest =>
    (match markerAt (c :: rest) with
     | some n => decide (n < (c :: rest).length)
     | none => false) || markerSearch rest

/-- The lazy non-space prefix of the first URL regex needs at least one
character before the marker. -/
def markerFrom : List Char → Bool
  | [] => false
  | _ :: rest => markerSearch rest

/-- Match length of the first tracking-URL regex (line 150 and line 1038):
protocol, a non-empty lazy non-space part, a marker, and a greedy non-space
tail reaching the end of the non-space run. -/
def urlR1Len (l : List Char) : Option Nat :=
  match protoLen l with
  | none => none
  | some k =>
    let run := l.takeWhile (fun c => !JsStr.wsJS c)
    if markerFrom (run.drop k) then some run.length else none

/-- Match length of the long-URL regex of email-processor only (line 151):
protocol then fifty or more non-space characters. -/
def urlR2Len (l : List Char) : Option Nat :=
  match protoLen l with
  | none => none
  | some k =>
    let run := l.takeWhile (fun c => !JsStr.wsJS c)
    if 50 ≤ run.length - k then some run.length else none

/-- Match length of the tracking-path regex (line 154 and line 1041):
protocol, a slashless host, a slash, one of four keywords, a greedy non-space
tail. -/
def urlR3Len (l : List Char) : Option Nat :=
  match protoLen l with
  | none => none
  | some k =>
    let run := l.takeWhile (fun c => !JsStr.wsJS c)
    let after := run.drop k
    let host := after.takeWhile (fun c => decide (c ≠ '/'))
    match after.drop host.length with
    | '/' :: rest2 =>
      if host ≠ [] ∧ ("track".data.isPrefixOf rest2 ∨ "click".data.isPrefixOf rest2 ∨
          "open".data.isPrefixOf rest2 ∨ "view".data.isPrefixOf rest2) then
        some run.length
      else none
    | _ => none

/-- A path segment slash-e-slash or slash-t-slash followed by five or more
alphanumerics occurs in l. -/
def r4Search : List Char → Bool
  | '/' :: c :: '/' :: rest =>
    ((c = 'e' || c = 't') && decide (5 ≤ (rest.takeWhile Char.isAlphanum).length)) ||
    r4Search (c :: '/' :: rest)
  | _ :: rest => r4Search rest
  | [] => false

/-- Match length of the opaque-hash tracking regex (line 155 and line 1042):
protocol, at least one non-space character, then a slash-e-or-t-slash segment
with a five-or-more alphanumeric hash and a greedy non-space tail. -/
def urlR4Len (l : List Char) : Option Nat :=
  match protoLen l with
  | none => none
  | some k =>
    let run := l.takeWhile (fun c => !JsStr.wsJS c)
    match run.drop k with
    | [] => none
    | _ :: tail2 => if r4Search tail2 then some run.length else none

/-- A letter or whitespace, the street and city class of the address regex. -/
def isAlphaWs (c : Char) : Bool := c.isAlpha || JsStr.wsJS c

/-- Match length of the street-address regex of email-processor (line 170):
digits, whitespace plus a letter-and-space run up to a comma, again, two
capitals, whitespace, five digits and an optional dash-four tail. -/
def addrLen (l : List Char) : Option Nat :=
  let ds := l.takeWhile Char.isDigit
  if ds = [] then none
  else
    let r1 := l.drop ds.length
    let seg1 := r1.takeWhile isAlphaWs
    if 2 ≤ seg1.length ∧ JsStr.wsJS (seg1.headD 'x') = true then
      match r1.drop seg1.length with
      | ',' :: r2 =>
        let seg2 := r2.takeWhile isAlphaWs
        if 2 ≤ seg2.length ∧ JsStr.wsJS (seg2.headD 'x') = true then
          match r2.drop seg2.length with
          | ',' :: r3 =>
            let sp3 := r3.takeWhile JsStr.wsJS
            if sp3 = [] then none
            else
              match r3.drop sp3.length with
              | a :: b :: r5 =>
                if a.isUpper ∧ b.isUpper then
                  let sp4 := r5.takeWhile JsStr.wsJS
                  if sp4 = [] then none
                  else
                    let r6 := r5.drop sp4.length
                    if 5 ≤ (r6.takeWhile Char.isDigit).length then
                      let base := ds.length + seg1.length + 1 + seg2.length + 1 +
                        sp3.length + 2 + sp4.length + 5
                      match r6.drop 5 with
                      | '-' :: t7 =>
                        if 4 ≤ (t7.takeWhile Char.isDigit).length then some (base + 5)
                        else some base
                      | _ => some base
                    else none
                else none
              | _ => none
          | _ => none
        else none
      | _ => none
    else none

/-- The newline-run cap (line 167 and line 1054): a replace of three or more
newlines by two, realized by dropping every newline preceded by two
consecutive newlines; k counts the immediately preceding newlines, capped. -/
def cNlAux : Nat → List Char → List Char
  | _, [] => []
  | k, c :: cs =>
    if c = '\n' then
      if 2 ≤ k then cNlAux k cs else c :: cNlAux (k + 1) cs
    else c :: cNlAux 0 cs

/-- The duplicate-content halving (lines 172 to 180 and 1056 to 1065): when
the text is long enough and its second half contains the first n characters
of its first half, only the first half is kept; n is 80 in email-processor
and 150 in gmail-auth. -/
def dupCut (n : Nat) (l : List Char) : List Char :=
  let half := l.length / 2
  if 100 < half then
    let fh := l.take half
    let sh := l.drop half
    if JsStr.isSubL (fh.take n) sh then fh else l
  else l

/-- The final truncation of email-processor only (lines 182 to 185): texts
longer than 2000 characters are cut at 2000 and get a three-dot tail. -/
def truncate2000 (l : List Char) : List Char :=
  if 2000 < l.length then l.take 2000 ++ "...".data else l

namespace EmailProcessor

/-- The pipeline of enhancedCleanEmailContent, src/email-processor.js lines
125 to 180, up to but not including the final truncation, on the parsed
document tree: script and style removal, the cheerio document wrapping, the
boilerplate removal passes, conversion to text, and the chain of string
cleanups through the duplicate-content detection. -/
def preClean (input : List HNode) : List Char :=
  let doc := wrapDoc (stripScripts input)
  let doc := stripClasses doc
  let doc := stripKeywordElems doc
  let doc := stripLinkParents doc
  let doc := cutHr doc
  let t := renderList doc
  let t := decEnt t
  let t := (filterBoilerplateLines ⟨t⟩).data
  let t := delAll urlR1Len t
  let t := delAll urlR2Len t
  let t := delAll urlR3Len t
  let t := delAll urlR4Len t
  let t := delAll (brMatchLen '[') t
  let t := delAll (brMatchLen ']') t
  let t := t.filter (fun c => !invis1 c)
  let t := normList t
  let t := t.filter (fun c => !invis2 c)
  let t := cNlAux 0 t
  let t := delAll addrLen t
  dupCut 80 t

/-- Source: enhancedCleanEmailContent of src/email-processor.js on the parsed
tree (parsing the raw string is the work of the cheerio host library; the
falsy-input guard of line 126 corresponds to the empty tree, which also
cleans to the empty string): the pipeline above followed by the
2000-character cap. -/
def enhancedCleanEmailContent (input : List HNode) : String :=
  ⟨truncate2000 (preClean input)⟩

end EmailProcessor

namespace GmailAuth

/-- The pipeline of enhancedCleanEmailContent, src/gmail-auth.js lines 1013
to 1073, on the parsed document tree.  It differs from the email-processor
variant in its line filter, in lacking the fifty-character long-URL rule and
the street-address removal, in its duplicate-detection needle length of 150,
and in applying no final truncation. -/
def preClean (input : List HNode) : List Char :=
  let doc := wrapDoc (stripScripts input)
  let doc := stripClasses doc
  let doc := stripKeywordElems doc
  let doc := stripLinkParents doc
  let doc := cutHr doc
  let t := renderList doc
  let t := decEnt t
  let t := (filterBoilerplateLines ⟨t⟩).data
  let t := delAll urlR1Len t
  let t := delAll urlR3Len t
  let t := delAll urlR4Len t
  let t := delAll (brMatchLen '[') t
  let t := delAll (brMatchLen ']') t
  let t := t.filter (fun c => !invis1 c)
  let t := normList t
  let t := t.filter (fun c => !invis2 c)
  let t := cNlAux 0 t
  dupCut 150 t

/-- Source: enhancedCleanEmailContent of src/gmail-auth.js on the parsed
tree: the pipeline above, returned without any length cap. -/
def enhancedCleanEmailContent (input : List HNode) : String :=
  ⟨preClean input⟩

end GmailAuth

theorem prefix_repl_all {needle : List Char} {n : Nat}
    (h : needle.isPrefixOf (List.replicate n 'a') = true) : ∀ c ∈ needle, c = 'a' := by
  rw [List.isPrefixOf_iff_prefix] at h
  intro c hc
  exact List.eq_of_mem_replicate (h.sublist.subset hc)

theorem isSubL_repl_false (needle : List Char)
    (hne : needle.all (fun c => c = 'a') = false) :
    ∀ n : Nat, JsStr.isSubL needle (List.replicate n 'a') = false := by
  intro n
  induction n with
  | zero =>
    rw [show List.replicate 0 'a' = ([] : List Char) from rfl]
    cases hn : needle with
    | nil => rw [hn] at hne; simp at hne
    | cons c cs => subst hn; simp [JsStr.isSubL]
  | succ m ih =>
    rw [List.replicate_succ]
    show (needle.isPrefixOf ('a' :: List.replicate m 'a') ||
      JsStr.isSubL needle (List.replicate m 'a')) = false
    cases hp : needle.isPrefixOf ('a' :: List.replicate m 'a') with
    | false => simpa using ih
    | true =>
      exfalso
      have hall := prefix_repl_all (n := m + 1)
        (by rw [List.replicate_succ]; exact hp)
      simp only [List.all_eq_false, decide_eq_true_eq] at hne
      obtain ⟨c, hc, hcne⟩ := hne
      exact hcne (hall c hc)

theorem delScan_id_of (mlen : List Char → Option Nat) (P : Char → Prop)
    (hP : ∀ c cs, P c → mlen (c :: cs) = none) :
    ∀ (fuel : Nat) (l : List Char), (∀ c ∈ l, P c) → delScan mlen fuel l = l := by
  intro fuel
  induction fuel with
  | zero => intro l _; rfl
  | succ f ih =>
    intro l hl
    cases l with
    | nil => rfl
    | cons c cs =>
      simp only [delScan, hP c cs (hl c (List.mem_cons_self c cs))]
      rw [ih cs (fun x hx => hl x (List.mem_cons_of_mem c hx))]

theorem delAll_id_of (mlen : List Char → Option Nat) (P : Char → Prop)
    (hP : ∀ c cs, P c → mlen (c :: cs) = none)
    (l : List Char) (hl : ∀ c ∈ l, P c) : delAll mlen l = l :=
  delScan_id_of mlen P hP l.length l hl

theorem squashAux_id_of_notC (isC : Char → Bool) (rep : Char) :
    ∀ (l : List Char) (b : Bool), (∀ c ∈ l, isC c = false) →
      JsStr.squashAux isC rep b l = l := by
  intro l
  induction l with
  | nil => intro b _; rfl
  | cons c cs ih =>
    intro b h
    have hc : isC c = false := h c (List.mem_cons_self c cs)
    simp only [JsStr.squashAux, hc, Bool.false_eq_true, ite_false]
    rw [ih false (fun x hx => h x (List.mem_cons_of_mem c hx))]

theorem dropWhile_id_of (p : Char → Bool) (l : List Char)
    (h : ∀ c ∈ l, p c = false) : l.dropWhile p = l := by
  cases l with
  | nil => rfl
  | cons c cs =>
    rw [List.dropWhile_cons_of_neg]
    simp [h c (List.mem_cons_self c cs)]

theorem trimB_id_of (l : List Char) (h : ∀ c ∈ l, JsStr.wsJS c = false) :
    JsStr.trimB l = l := by
  show JsStr.trimR (JsStr.trimL l) = l
  rw [show JsStr.trimL l = l from dropWhile_id_of _ l h]
  show (l.reverse.dropWhile JsStr.wsJS).reverse = l
  rw [dropWhile_id_of _ l.reverse (fun c hc => h c (List.mem_reverse.mp hc))]
  exact List.reverse_reverse l

theorem cNlAux_id_of : ∀ (l : List Char), (∀ c ∈ l, c ≠ '\n') →
    ∀ k, cNlAux k l = l := by
  intro l
  induction l with
  | nil => intro _ k; rfl
  | cons c cs ih =>
    intro h k
    have hc : c ≠ '\n' := h c (List.mem_cons_self c cs)
    simp only [cNlAux, hc, ite_false]
    rw [ih (fun x hx => h x (List.mem_cons_of_mem c hx)) 0]

theorem takeWhile_all_of (p : Char → Bool) :
    ∀ l : List Char, (∀ c ∈ l, p c = true) → l.takeWhile p = l := by
  intro l
  induction l with
  | nil => intro _; rfl
  | cons c cs ih =>
    intro h
    rw [List.takeWhile_cons_of_pos (h c (List.mem_cons_self c cs))]
    rw [ih (fun x hx => h x (List.mem_cons_of_mem c hx))]

theorem splitCh_sep (sep : Char) (cs : List Char) :
    JsStr.splitCh sep (sep :: cs) = [] :: JsStr.splitCh sep cs := by
  simp [JsStr.splitCh]

theorem splitCh_append_no_sep (sep : Char) :
    ∀ (l r g : List Char) (gs : List (List Char)),
      (∀ c ∈ l, c ≠ sep) → JsStr.splitCh sep r = g :: gs →
      JsStr.splitCh sep (l ++ r) = (l ++ g) :: gs := by
  intro l
  induction l with
  | nil => intro r g gs _ hr; simpa using hr
  | cons c cs ih =>
    intro r g gs h hr
    have hc : c ≠ sep := h c (List.mem_cons_self c cs)
    have hcs := ih r g gs (fun x hx => h x (List.mem_cons_of_mem c hx)) hr
    simp only [List.cons_append, JsStr.splitCh, hc, ite_false]
    rw [show cs.append r = cs ++ r from rfl, hcs]

theorem repl_isPrefixOf : ∀ (j m : Nat), j ≤ m →
    (List.replicate j 'a').isPrefixOf (List.replicate m 'a') = true := by
  intro j
  induction j with
  | zero => intro m _; simp [List.isPrefixOf]
  | succ i ih =>
    intro m hm
    cases m with
    | zero => omega
    | succ m2 =>
      rw [List.replicate_succ, List.replicate_succ]
      show (('a' == 'a') && (List.replicate i 'a').isPrefixOf (List.replicate m2 'a')) = true
      rw [ih m2 (by omega)]
      rfl

theorem isSubL_repl_true (j m : Nat) (hj : j ≤ m) (hm : 1 ≤ m) :
    JsStr.isSubL (List.replicate j 'a') (List.replicate m 'a') = true := by
  cases m with
  | zero => omega
  | succ m2 =>
    rw [List.replicate_succ]
    show ((List.replicate j 'a').isPrefixOf ('a' :: List.replicate m2 'a') ||
      JsStr.isSubL (List.replicate j 'a') (List.replicate m2 'a')) = true
    rw [show ('a' :: List.replicate m2 'a') = List.replicate (m2 + 1) 'a' from
      (List.replicate_succ 'a' m2).symm]
    rw [repl_isPrefixOf j (m2 + 1) hj]
    rfl

theorem dupCut_repl (k n : Nat) (h100 : 100 < n / 2) (hfit : min k (n / 2) ≤ n - n / 2) :
    dupCut k (List.replicate n 'a') = List.replicate (n / 2) 'a' := by
  unfold dupCut
  rw [List.length_replicate]
  rw [if_pos h100]
  simp only [List.take_replicate, List.drop_replicate]
  have hmin : min (n / 2) n = n / 2 := by omega
  rw [hmin]
  rw [isSubL_repl_true (min k (n / 2)) (n - n / 2) hfit (by omega)]
  simp

theorem decEnt_id : ∀ l : List Char, (∀ c ∈ l, c ≠ 'Â' ∧ c ≠ 'â') →
    decEnt l = l := by
  intro l
  induction l with
  | nil => intro _; rfl
  | cons c cs ih =>
    intro h
    have hc := h c (List.mem_cons_self c cs)
    have htail := ih (fun x hx => h x (List.mem_cons_of_mem c hx))
    cases cs with
    | nil => rfl
    | cons c2 rest =>
      by_cases h2 : c2 = ' '
      · subst h2
        simp only [decEnt, hc.1, hc.2, or_self, ite_false]
        rw [htail]
      · have : decEnt (c :: c2 :: rest) = c :: decEnt (c2 :: rest) := by
          simp [decEnt, h2]
        rw [this, htail]

theorem protoLen_none {c : Char} (h : c ≠ 'h') (cs : List Char) :
    protoLen (c :: cs) = none := by
  have e1 : "https://".data = 'h' :: "ttps://".data := rfl
  have e2 : "http://".data = 'h' :: "ttp://".data := rfl
  simp only [protoLen, e1, e2, List.isPrefixOf]
  simp [beq_iff_eq, Ne.symm h]

theorem urlR1Len_none {c : Char} (h : c ≠ 'h') (cs : List Char) :
    urlR1Len (c :: cs) = none := by
  simp [urlR1Len, protoLen_none h]

theorem urlR2Len_none {c : Char} (h : c ≠ 'h') (cs : List Char) :
    urlR2Len (c :: cs) = none := by
  simp [urlR2Len, protoLen_none h]

theorem urlR3Len_none {c : Char} (h : c ≠ 'h') (cs : List Char) :
    urlR3Len (c :: cs) = none := by
  simp [urlR3Len, protoLen_none h]

theorem urlR4Len_none {c : Char} (h : c ≠ 'h') (cs : List Char) :
    urlR4Len (c :: cs) = none := by
  simp [urlR4Len, protoLen_none h]

theorem brMatchLen_none {br c : Char} (h : c ≠ br) (cs : List Char) :
    brMatchLen br (c :: cs) = none := by
  simp [brMatchLen, h]

theorem addrLen_none {c : Char} (h : c.isDigit = false) (cs : List Char) :
    addrLen (c :: cs) = none := by
  simp [addrLen, List.takeWhile_cons, h]

theorem emailScan_repl_some : ∀ m : Nat,
    JsStr.emailScan (some 'a') (List.replicate m 'a') = false := by
  intro m
  induction m with
  | zero => rfl
  | succ k ih =>
    rw [List.replicate_succ]
    show ((JsStr.wordB (some 'a') 'a' && JsStr.emailHeadMatch ('a' :: List.replicate k 'a')) ||
      JsStr.emailScan (some 'a') (List.replicate k 'a')) = false
    rw [show JsStr.wordB (some 'a') 'a' = false from rfl]
    rw [Bool.false_and, Bool.false_or]
    exact ih

theorem hasEmailPat_repl (n : Nat) :
    JsStr.hasEmailPat (List.replicate n 'a') = false := by
  cases n with
  | zero => rfl
  | succ m =>
    rw [List.replicate_succ]
    show ((JsStr.wordB none 'a' && JsStr.emailHeadMatch ('a' :: List.replicate m 'a')) ||
      JsStr.emailScan (some 'a') (List.replicate m 'a')) = false
    have hh : JsStr.emailHeadMatch ('a' :: List.replicate m 'a') = false := by
      have ht : ('a' :: List.replicate m 'a').takeWhile JsStr.emailClass1 =
          'a' :: List.replicate m 'a' := by
        apply takeWhile_all_of
        intro c hc
        have : c = 'a' := by
          rcases List.mem_cons.mp hc with h | h
          · exact h
          · exact List.eq_of_mem_replicate h
        subst this
        rfl
      simp only [JsStr.emailHeadMatch, ht]
      rw [List.drop_length]
      simp
    rw [hh, Bool.and_false, Bool.false_or]
    exact emailScan_repl_some m

theorem phoneMatch_repl : ∀ m : Nat,
    JsStr.phoneMatch (List.replicate m 'a') = false := by
  intro m
  match m with
  | 0 => rfl
  | 1 => rfl
  | 2 => rfl
  | 3 => rfl
  | k + 4 =>
    show JsStr.phoneMatch ('a' :: 'a' :: 'a' :: 'a' :: List.replicate k 'a') = false
    rfl

theorem phoneScan_repl_some : ∀ m : Nat,
    JsStr.phoneScan (some 'a') (List.replicate m 'a') = false := by
  intro m
  induction m with
  | zero => rfl
  | succ k ih =>
    rw [List.replicate_succ]
    show ((JsStr.wordB (some 'a') 'a' && JsStr.phoneMatch ('a' :: List.replicate k 'a')) ||
      JsStr.phoneScan (some 'a') (List.replicate k 'a')) = false
    rw [show JsStr.wordB (some 'a') 'a' = false from rfl]
    rw [Bool.false_and, Bool.false_or]
    exact ih

theorem hasPhonePat_repl (n : Nat) :
    JsStr.hasPhonePat (List.replicate n 'a') = false := by
  cases n with
  | zero => rfl
  | succ m =>
    rw [List.replicate_succ]
    show ((JsStr.wordB none 'a' && JsStr.phoneMatch ('a' :: List.replicate m 'a')) ||
      JsStr.phoneScan (some 'a') (List.replicate m 'a')) = false
    rw [show ('a' :: List.replicate m 'a') = List.replicate (m + 1) 'a' from
      (List.replicate_succ 'a' m).symm]
    rw [phoneMatch_repl (m + 1), Bool.and_false, Bool.false_or]
    exact phoneScan_repl_some m

theorem urlAt_a (l : List Char) : JsStr.urlAt ('a' :: l) = false := rfl

theorem urlScan_repl (n : Nat) :
    JsStr.urlScan (List.replicate n 'a') = false := by
  induction n with
  | zero => rfl
  | succ m ih =>
    rw [List.replicate_succ]
    show (JsStr.urlAt ('a' :: List.replicate m 'a') ||
      JsStr.urlScan (List.replicate m 'a')) = false
    rw [urlAt_a, Bool.false_or]
    exact ih

theorem intercalate_singleton (sep x : List Char) :
    List.intercalate sep [x] = x := by
  simp [List.intercalate]

/-- A single paragraph element holding n letters a: the growing input family
used to trace both cleaning pipelines symbolically. -/
def pE (n : Nat) : HNode := HNode.elem "p" [] none [HNode.text ⟨List.replicate n 'a'⟩]

/-- The one-paragraph document fragment of n letters. -/
def aPara (n : Nat) : List HNode := [pE n]

/-- The body wrapper around the paragraph, as cheerio.load builds it. -/
def bodyE (n : Nat) : HNode := HNode.elem "body" [] none [pE n]

/-- The empty head element of the wrapped document. -/
def headE : HNode := HNode.elem "head" [] none []

/-- The html root of the wrapped one-paragraph document. -/
def htmlE (n : Nat) : HNode := HNode.elem "html" [] none [headE, bodyE n]

/-- The text the converter produces for the wrapped one-paragraph document:
five newlines of opening block boundaries, the letters, three closing ones. -/
def aRender (n : Nat) : List Char :=
  '\n' :: '\n' :: '\n' :: '\n' :: '\n' :: (List.replicate n 'a' ++ ['\n', '\n', '\n'])

theorem stripClasses_wrap_aPara (n : Nat) :
    stripClasses (wrapDoc (stripScripts (aPara n))) = [htmlE n] := rfl

theorem linkParents_cutHr_aDoc (n : Nat) :
    cutHr (stripLinkParents [htmlE n]) = [htmlE n] := rfl

theorem renderNode_block (tag : String) (cls : List String) (href : Option String)
    (ch : List HNode) (htag : blockTags.contains tag = true) :
    renderNode (HNode.elem tag cls href ch) = '\n' :: (renderList ch ++ ['\n']) := by
  rw [renderNode.eq_def]
  simp only []
  rw [if_pos htag]

theorem anyKw_repl (ks : List (List Char))
    (h : ∀ k ∈ ks, k.all (fun c => c = 'a') = false) (n : Nat) :
    ks.any (fun k => JsStr.isSubL k (List.replicate n 'a')) = false := by
  induction ks with
  | nil => rfl
  | cons k rest ih =>
    rw [List.any_cons, isSubL_repl_false k (h k (List.mem_cons_self k rest)) n,
      Bool.false_or]
    exact ih fun x hx => h x (List.mem_cons_of_mem k hx)

theorem elemKw_repl (n : Nat) :
    elemKeywords.any
      (fun k => JsStr.isSubL k ((List.replicate n 'a').map Char.toLower)) = false := by
  rw [List.map_replicate]
  rw [show Char.toLower 'a' = 'a' from rfl]
  exact anyKw_repl elemKeywords (by decide) n

theorem kw_p (n : Nat) : stripKeywordNode (pE n) = [pE n] := by
  rw [show pE n = HNode.elem "p" [] none [HNode.text ⟨List.replicate n 'a'⟩] from rfl]
  rw [stripKeywordNode.eq_def]
  simp only []
  rw [show textContentList [HNode.text ⟨List.replicate n 'a'⟩] = List.replicate n 'a'
    from by simp [textContentList, textContent]]
  rw [if_neg (by rw [elemKw_repl n]; exact Bool.false_ne_true)]
  rfl

theorem kw_body (n : Nat) : stripKeywordNode (bodyE n) = [bodyE n] := by
  rw [show bodyE n = HNode.elem "body" [] none [pE n] from rfl]
  rw [stripKeywordNode.eq_def]
  simp only []
  rw [show textContentList [pE n] = List.replicate n 'a'
    from by simp [textContentList, textContent, pE]]
  rw [if_neg (by rw [elemKw_repl n]; exact Bool.false_ne_true)]
  show [HNode.elem "body" [] none (stripKeywordNode (pE n) ++ stripKeywordElems [])] = _
  rw [kw_p]
  rfl

theorem kw_html (n : Nat) : stripKeywordNode (htmlE n) = [htmlE n] := by
  rw [show htmlE n = HNode.elem "html" [] none [headE, bodyE n] from rfl]
  rw [stripKeywordNode.eq_def]
  simp only []
  rw [show textContentList [headE, bodyE n] = List.replicate n 'a'
    from by simp [textContentList, textContent, headE, bodyE, pE]]
  rw [if_neg (by rw [elemKw_repl n]; exact Bool.false_ne_true)]
  show [HNode.elem "html" [] none
    (stripKeywordNode headE ++ (stripKeywordNode (bodyE n) ++ stripKeywordElems []))] = _
  rw [show stripKeywordNode headE = [headE] from rfl, kw_body]
  rfl

theorem kw_doc (n : Nat) : stripKeywordElems [htmlE n] = [htmlE n] := by
  show stripKeywordNode (htmlE n) ++ stripKeywordElems [] = _
  rw [kw_html]
  rfl

theorem render_p (n : Nat) :
    renderList [pE n] = '\n' :: (List.replicate n 'a' ++ ['\n']) := by
  show renderNode (pE n) ++ renderList [] = _
  rw [show pE n = HNode.elem "p" [] none [HNode.text ⟨List.replicate n 'a'⟩] from rfl]
  rw [renderNode_block _ _ _ _ (by decide)]
  show ('\n' :: ((List.replicate n 'a' ++ ([] : List Char)) ++ ['\n'])) ++ ([] : List Char) = _
  simp

theorem render_body (n : Nat) :
    renderList [bodyE n] = '\n' :: '\n' :: (List.replicate n 'a' ++ ['\n', '\n']) := by
  show renderNode (bodyE n) ++ renderList [] = _
  rw [show bodyE n = HNode.elem "body" [] none [pE n] from rfl]
  rw [renderNode_block _ _ _ _ (by decide), render_p]
  simp [show renderList ([] : List HNode) = [] from rfl]

theorem render_doc (n : Nat) : renderList [htmlE n] = aRender n := by
  show renderNode (htmlE n) ++ renderList [] = _
  rw [show htmlE n = HNode.elem "html" [] none [headE, bodyE n] from rfl]
  rw [renderNode_block _ _ _ _ (by decide)]
  show ('\n' :: ((renderNode headE ++ renderList [bodyE n]) ++ ['\n'])) ++ ([] : List Char) = _
  rw [show renderNode headE = ['\n', '\n'] from rfl, render_body]
  simp [aRender]

theorem aRender_mem {c : Char} {n : Nat} (hc : c ∈ aRender n) : c = '\n' ∨ c = 'a' := by
  unfold aRender at hc
  simp only [List.mem_cons, List.mem_append, List.mem_replicate] at hc
  rcases hc with h | h | h | h | h | ⟨-, h⟩ | h
  · exact Or.inl h
  · exact Or.inl h
  · exact Or.inl h
  · exact Or.inl h
  · exact Or.inl h
  · exact Or.inr h
  · rcases h with h | h | h | h
    · exact Or.inl h
    · exact Or.inl h
    · exact Or.inl h
    · exact absurd h (List.not_mem_nil c)

theorem decEnt_aRender (n : Nat) : decEnt (aRender n) = aRender n := by
  apply decEnt_id
  intro c hc
  rcases aRender_mem hc with h | h <;> subst h <;> exact ⟨by decide, by decide⟩

theorem splitCh_aRender (n : Nat) :
    JsStr.splitCh '\n' (aRender n) =
      [] :: [] :: [] :: [] :: [] :: List.replicate n 'a' :: [[], [], []] := by
  unfold aRender
  rw [splitCh_sep, splitCh_sep, splitCh_sep, splitCh_sep, splitCh_sep]
  rw [splitCh_append_no_sep '\n' (List.replicate n 'a') ['\n', '\n', '\n'] [] [[], [], []]
    (fun c hc => by rw [List.eq_of_mem_replicate hc]; decide) (by decide)]
  rw [List.append_nil]

theorem trimB_repl (n : Nat) : JsStr.trimB (List.replicate n 'a') = List.replicate n 'a' :=
  trimB_id_of _ (fun c hc => by rw [List.eq_of_mem_replicate hc]; decide)

theorem GA_keepLine_repl (n : Nat) (h5 : 5 ≤ n) :
    GmailAuth.keepLine (List.replicate n 'a') = true := by
  unfold GmailAuth.keepLine
  rw [List.length_replicate, if_neg (by omega)]
  simp only [List.map_replicate]
  rw [show Char.toLower 'a' = 'a' from rfl]
  rw [if_neg (by rw [anyKw_repl GmailAuth.gaKeywords (by decide) n]; exact Bool.false_ne_true)]

theorem EP_keepLine_repl (n : Nat) (h5 : 5 ≤ n) :
    EmailProcessor.keepLine (List.replicate n 'a') = true := by
  unfold EmailProcessor.keepLine
  rw [List.length_replicate, if_neg (by omega)]
  simp only [List.map_replicate]
  rw [show Char.toLower 'a' = 'a' from rfl]
  rw [if_neg (by rw [anyKw_repl EmailProcessor.footerKeywords (by decide) n]; exact Bool.false_ne_true)]
  rw [if_neg (by rw [hasEmailPat_repl n]; exact Bool.false_ne_true)]
  rw [if_neg (by rw [hasPhonePat_repl n]; exact Bool.false_ne_true)]
  rw [if_neg (by rw [show JsStr.hasURLPat (List.replicate n 'a') = false from urlScan_repl n]; exact Bool.false_ne_true)]

theorem GA_filter_aRender (n : Nat) (h5 : 5 ≤ n) :
    (GmailAuth.filterBoilerplateLines ⟨aRender n⟩).data = List.replicate n 'a' := by
  show List.intercalate ['\n']
    (((JsStr.splitCh '\n' (aRender n)).map JsStr.trimB).filter GmailAuth.keepLine) =
    List.replicate n 'a'
  rw [splitCh_aRender]
  show List.intercalate ['\n']
    (List.filter GmailAuth.keepLine
      (JsStr.trimB (List.replicate n 'a') :: [[], [], []])) = List.replicate n 'a'
  rw [trimB_repl]
  rw [List.filter_cons, GA_keepLine_repl n h5]
  rw [if_pos rfl]
  show List.intercalate ['\n'] [List.replicate n 'a'] = _
  exact intercalate_singleton _ _

theorem EP_filter_aRender (n : Nat) (h5 : 5 ≤ n) :
    (EmailProcessor.filterBoilerplateLines ⟨aRender n⟩).data = List.replicate n 'a' := by
  show JsStr.trimB (List.intercalate ['\n']
    (((JsStr.splitCh '\n' (aRender n)).map JsStr.trimB).filter EmailProcessor.keepLine)) =
    List.replicate n 'a'
  rw [splitCh_aRender]
  show JsStr.trimB (List.intercalate ['\n']
    (List.filter EmailProcessor.keepLine
      (JsStr.trimB (List.replicate n 'a') :: [[], [], []]))) = List.replicate n 'a'
  rw [trimB_repl]
  rw [List.filter_cons, EP_keepLine_repl n h5]
  rw [if_pos rfl]
  show JsStr.trimB (List.intercalate ['\n'] [List.replicate n 'a']) = _
  rw [intercalate_singleton]
  exact trimB_repl n

theorem repl_mem_a {c : Char} {n : Nat} (hc : c ∈ List.replicate n 'a') : c = 'a' :=
  List.eq_of_mem_replicate hc

theorem delAll_u1_repl (n : Nat) :
    delAll urlR1Len (List.replicate n 'a') = List.replicate n 'a' :=
  delAll_id_of urlR1Len (fun c => c = 'a')
    (fun c cs hc => by subst hc; exact urlR1Len_none (by decide) cs) _
    (fun c hc => repl_mem_a hc)

theorem delAll_u2_repl (n : Nat) :
    delAll urlR2Len (List.replicate n 'a') = List.replicate n 'a' :=
  delAll_id_of urlR2Len (fun c => c = 'a')
    (fun c cs hc => by subst hc; exact urlR2Len_none (by decide) cs) _
    (fun c hc => repl_mem_a hc)

theorem delAll_u3_repl (n : Nat) :
    delAll urlR3Len (List.replicate n 'a') = List.replicate n 'a' :=
  delAll_id_of urlR3Len (fun c => c = 'a')
    (fun c cs hc => by subst hc; exact urlR3Len_none (by decide) cs) _
    (fun c hc => repl_mem_a hc)

theorem delAll_u4_repl (n : Nat) :
    delAll urlR4Len (List.replicate n 'a') = List.replicate n 'a' :=
  delAll_id_of urlR4Len (fun c => c = 'a')
    (fun c cs hc => by subst hc; exact urlR4Len_none (by decide) cs) _
    (fun c hc => repl_mem_a hc)

theorem delAll_br1_repl (n : Nat) :
    delAll (brMatchLen '[') (List.replicate n 'a') = List.replicate n 'a' :=
  delAll_id_of _ (fun c => c = 'a')
    (fun c cs hc => by subst hc; exact brMatchLen_none (by decide) cs) _
    (fun c hc => repl_mem_a hc)

theorem delAll_br2_repl (n : Nat) :
    delAll (brMatchLen ']') (List.replicate n 'a') = List.replicate n 'a' :=
  delAll_id_of _ (fun c => c = 'a')
    (fun c cs hc => by subst hc; exact brMatchLen_none (by decide) cs) _
    (fun c hc => repl_mem_a hc)

theorem delAll_addr_repl (n : Nat) :
    delAll addrLen (List.replicate n 'a') = List.replicate n 'a' :=
  delAll_id_of addrLen (fun c => c = 'a')
    (fun c cs hc => by subst hc; exact addrLen_none (by decide) cs) _
    (fun c hc => repl_mem_a hc)

theorem filter_inv1_repl (n : Nat) :
    List.filter (fun c => !invis1 c) (List.replicate n 'a') = List.replicate n 'a' :=
  List.filter_eq_self.mpr (fun c hc => by rw [repl_mem_a hc]; decide)

theorem filter_inv2_repl (n : Nat) :
    List.filter (fun c => !invis2 c) (List.replicate n 'a') = List.replicate n 'a' :=
  List.filter_eq_self.mpr (fun c hc => by rw [repl_mem_a hc]; decide)

theorem normList_repl (n : Nat) :
    normList (List.replicate n 'a') = List.replicate n 'a' := by
  show JsStr.trimB (JsStr.squashAux JsStr.isNl '\n' false
    (JsStr.squashAux JsStr.isSpTab ' ' false (List.replicate n 'a'))) = _
  rw [squashAux_id_of_notC JsStr.isSpTab ' ' _ false
    (fun c hc => by rw [repl_mem_a hc]; decide)]
  rw [squashAux_id_of_notC JsStr.isNl '\n' _ false
    (fun c hc => by rw [repl_mem_a hc]; decide)]
  exact trimB_repl n

theorem cNlAux_repl (n : Nat) :
    cNlAux 0 (List.replicate n 'a') = List.replicate n 'a' :=
  cNlAux_id_of _ (fun c hc => by rw [repl_mem_a hc]; decide) 0

/-- The gmail-auth pipeline on the one-paragraph document of n letters, for n
at least 300: every boilerplate pass leaves the letters alone, the whitespace
passes drop the block newlines, and the duplicate-content halving keeps the
first half, so the output is n / 2 letters with no further cap. -/
theorem GA_preClean_repl (n : Nat) (h300 : 300 ≤ n) :
    GmailAuth.preClean (aPara n) = List.replicate (n / 2) 'a' := by
  have htree : cutHr (stripLinkParents (stripKeywordElems (stripClasses
      (wrapDoc (stripScripts (aPara n)))))) = [htmlE n] := by
    rw [stripClasses_wrap_aPara, kw_doc, linkParents_cutHr_aDoc]
  show dupCut 150 (cNlAux 0 (List.filter (fun c => !invis2 c) (normList
    (List.filter (fun c => !invis1 c) (delAll (brMatchLen ']') (delAll (brMatchLen '[')
    (delAll urlR4Len (delAll urlR3Len (delAll urlR1Len
    ((GmailAuth.filterBoilerplateLines ⟨decEnt (renderList (cutHr (stripLinkParents
    (stripKeywordElems (stripClasses (wrapDoc (stripScripts (aPara n))))))))⟩).data)))))))))) =
    List.replicate (n / 2) 'a'
  rw [htree, render_doc, decEnt_aRender, GA_filter_aRender n (by omega),
    delAll_u1_repl, delAll_u3_repl, delAll_u4_repl, delAll_br1_repl, delAll_br2_repl,
    filter_inv1_repl, normList_repl, filter_inv2_repl, cNlAux_repl]
  exact dupCut_repl 150 n (by omega) (by omega)

/-- The email-processor pipeline before its final truncation, on the same
inputs: the extra long-URL and street-address passes also leave the letters
alone, so the pre-truncation text is again n / 2 letters. -/
theorem EP_preClean_repl (n : Nat) (h300 : 300 ≤ n) :
    EmailProcessor.preClean (aPara n) = List.replicate (n / 2) 'a' := by
  have htree : cutHr (stripLinkParents (stripKeywordElems (stripClasses
      (wrapDoc (stripScripts (aPara n)))))) = [htmlE n] := by
    rw [stripClasses_wrap_aPara, kw_doc, linkParents_cutHr_aDoc]
  show dupCut 80 (delAll addrLen (cNlAux 0 (List.filter (fun c => !invis2 c) (normList
    (List.filter (fun c => !invis1 c) (delAll (brMatchLen ']') (delAll (brMatchLen '[')
    (delAll urlR4Len (delAll urlR3Len (delAll urlR2Len (delAll urlR1Len
    ((EmailProcessor.filterBoilerplateLines ⟨decEnt (renderList (cutHr (stripLinkParents
    (stripKeywordElems (stripClasses (wrapDoc (stripScripts (aPara n)))))))
    )⟩).data)))))))))))) = List.replicate (n / 2) 'a'
  rw [htree, render_doc, decEnt_aRender, EP_filter_aRender n (by omega),
    delAll_u1_repl, delAll_u2_repl, delAll_u3_repl, delAll_u4_repl, delAll_br1_repl,
    delAll_br2_repl, filter_inv1_repl, normList_repl, filter_inv2_repl, cNlAux_repl,
    delAll_addr_repl]
  exact dupCut_repl 80 n (by omega) (by omega)

/-- Claim C5: the spec reads the first horizontal rule as a hard signature
delimiter and expects the document with paragraphs Hello and Unsubscribe here
around a rule to clean to exactly Hello.  The cut does drop everything after
the rule when the trailing content is neutral (first conjunct: Goodbye now
disappears), but on the cited example the pipeline returns the empty string
(second conjunct): the element keyword sweep runs before the rule cut and
removes the html and body wrappers, whose concatenated text contains the
keyword unsubscribe, emptying the whole document. -/
theorem claim_C5_hr_cut :
    EmailProcessor.enhancedCleanEmailContent
      [HNode.elem "p" [] none [HNode.text "Hello"],
       HNode.elem "hr" [] none [],
       HNode.elem "p" [] none [HNode.text "Goodbye now"]] = "Hello" ∧
    EmailProcessor.enhancedCleanEmailContent
      [HNode.elem "p" [] none [HNode.text "Hello"],
       HNode.elem "hr" [] none [],
       HNode.elem "p" [] none [HNode.text "Unsubscribe here"]] = "" :=
  ⟨by decide, by decide⟩

/-- Claim C10: in the flat-export pipeline of email-processor,
enhancedCleanEmailContent caps every result at 2000 characters plus a
three-dot tail, so its output never exceeds 2003 characters for any input
tree, a long pre-truncation text is cut at exactly 2000 with the tail
appended, and a short one passes through; the gmail-auth pipeline applies no
such cap: on the one-paragraph document of n letters it returns n / 2
characters, growing without bound. -/
theorem claim_C10_truncation_cap :
    (∀ input : List HNode,
        (EmailProcessor.enhancedCleanEmailContent input).length ≤ 2003) ∧
    (∀ input : List HNode, 2000 < (EmailProcessor.preClean input).length →
        EmailProcessor.enhancedCleanEmailContent input =
          ⟨(EmailProcessor.preClean input).take 2000 ++ "...".data⟩) ∧
    (∀ input : List HNode, (EmailProcessor.preClean input).length ≤ 2000 →
        EmailProcessor.enhancedCleanEmailContent input = ⟨EmailProcessor.preClean input⟩) ∧
    (∀ n : Nat, 300 ≤ n →
        (GmailAuth.enhancedCleanEmailContent (aPara n)).length = n / 2) := by
  refine ⟨?_, ?_, ?_, ?_⟩
  · intro input
    show (truncate2000 (EmailProcessor.preClean input)).length ≤ 2003
    unfold truncate2000
    split
    · rw [List.length_append, List.length_take, show ("...".data).length = 3 from rfl]
      omega
    · omega
  · intro input h
    show String.mk (truncate2000 (EmailProcessor.preClean input)) = _
    unfold truncate2000
    rw [if_pos h]
  · intro input h
    show String.mk (truncate2000 (EmailProcessor.preClean input)) = _
    unfold truncate2000
    rw [if_neg (by omega)]
  · intro n hn
    show (GmailAuth.preClean (aPara n)).length = n / 2
    rw [GA_preClean_repl n hn, List.length_replicate]

/-- Witness for claim C10: on the paragraph of 4100 letters the
email-processor pre-truncation text is 2050 characters, over the cap, so the
truncation branch fires, while gmail-auth returns all 2050 characters. -/
theorem claim_C10_truncation_cap_witness :
    (2000 < (EmailProcessor.preClean (aPara 4100)).length ∧
      EmailProcessor.enhancedCleanEmailContent (aPara 4100) =
        ⟨(EmailProcessor.preClean (aPara 4100)).take 2000 ++ "...".data⟩) ∧
    (300 ≤ 4100 ∧ (GmailAuth.enhancedCleanEmailContent (aPara 4100)).length = 4100 / 2) := by
  have hlen : 2000 < (EmailProcessor.preClean (aPara 4100)).length := by
    rw [EP_preClean_repl 4100 (by decide), List.length_replicate]
    decide
  exact ⟨⟨hlen, claim_C10_truncation_cap.2.1 (aPara 4100) hlen⟩,
    ⟨by decide, claim_C10_truncation_cap.2.2.2 4100 (by decide)⟩⟩
